import Mathlib

set_option maxRecDepth 16000
set_option maxHeartbeats 2000000

/-!
# Verification of the SutraPrayogaInKayvas extraction core

Shallow embedding of the repository's core text-processing code:

* `src/scripts/SutraPrayogaExtract.py` — `extract_sentences_with_sutra`
  (the sentence-boundary extractor),
* `src/scripts/SutraSentenceProcessor.py` — `SutraSentenceProcessor`
  (the citation normalizer),
* `src/fill_empty_words_with_ai.py` — `WordFiller.fill_empty_words`
  (the word-enrichment pass),
* `src/textAggregator/Aggregator.py` — `sort_sutra_dict`
  (the final ordering of the aggregated lookup table).

Commentary text is modelled as `List Char` (a Python `str` is a sequence of
Unicode code points; indices and slices below mirror Python's).  The regex
`\(पा\.\d+[।|]\d+[।|]\d+\)` is embedded as an explicit matcher; `\d` is
modelled as the ASCII digits `0`–`9` and `\s` / `str.strip` whitespace as
ASCII whitespace, which is what occurs in the corpus.
-/

namespace SutraPrayoga

/-- Sentence delimiter characters (danda `।` U+0964 and double danda `॥` U+0965),
the character class `[।॥]` of the Python code. -/
def isDanda (c : Char) : Bool := c = '।' || c = '॥'

/-- The two interchangeable intra-marker separators, the class `[।|]`. -/
def isDelim (c : Char) : Bool := c = '।' || c = '|'

/-- Whitespace, for `str.strip` / `\s`. -/
def isSpace (c : Char) : Bool := c.isWhitespace

/-- Python slice `s[a:b]` (with the usual clamping; callers pass `a ≥ 0`
via truncated subtraction, matching the code's `max(0, …)`). -/
def slice (s : List Char) (a b : Nat) : List Char := (s.take b).drop a

/-- Python `s.strip()`. -/
def pyStrip (s : List Char) : List Char :=
  ((s.dropWhile isSpace).reverse.dropWhile isSpace).reverse

/-- Value of a digit string (groups are ASCII digits). -/
def digitsToNat (l : List Char) : Nat :=
  l.foldl (fun a c => 10 * a + (c.toNat - 48)) 0

/-- The three digit groups of a marker. -/
abbrev Groups := List Char × List Char × List Char

/-- Result of matching the citation-marker regex `\(पा\.\d+[।|]\d+[।|]\d+\)`
at the head of a suffix: the length of the match together with the three
digit groups.  The greedy `\d+` groups are maximal digit runs; since each is
followed by a non-digit in any successful match, the regex match is exactly
this deterministic run-based parse. -/
def matchMarkerSuffix (l : List Char) : Option (Nat × Groups) :=
  match l with
  | c0 :: ca :: cb :: cc :: rest =>
    if c0 = '(' ∧ ca = 'प' ∧ cb = 'ा' ∧ cc = '.' then
      match rest.dropWhile (·.isDigit) with
      | c1 :: r2 =>
        if (rest.takeWhile (·.isDigit)).isEmpty ∨ ¬isDelim c1 then none
        else
          match r2.dropWhile (·.isDigit) with
          | c2 :: r4 =>
            if (r2.takeWhile (·.isDigit)).isEmpty ∨ ¬isDelim c2 then none
            else
              match r4.dropWhile (·.isDigit) with
              | c3 :: _ =>
                if (r4.takeWhile (·.isDigit)).isEmpty ∨ c3 ≠ ')' then none
                else
                  some (4 + (rest.takeWhile (·.isDigit)).length + 1 +
                          (r2.takeWhile (·.isDigit)).length + 1 +
                          (r4.takeWhile (·.isDigit)).length + 1,
                        (rest.takeWhile (·.isDigit), r2.takeWhile (·.isDigit),
                         r4.takeWhile (·.isDigit)))
              | [] => none
          | [] => none
      | [] => none
    else none
  | _ => none

/-- The decomposition a successful marker match certifies: the suffix starts
with the literal head `"(पा."`, then three non-empty all-digit groups
separated by two delimiter characters, then `')'`; `n` is the match length. -/
def MarkerShape (n : Nat) (g : Groups) (l : List Char) : Prop :=
  ∃ c1 c2 rest,
    l = '(' :: 'प' :: 'ा' :: '.' ::
          (g.1 ++ c1 :: (g.2.1 ++ c2 :: (g.2.2 ++ ')' :: rest))) ∧
    g.1 ≠ [] ∧ g.2.1 ≠ [] ∧ g.2.2 ≠ [] ∧
    (∀ c ∈ g.1, c.isDigit = true) ∧ (∀ c ∈ g.2.1, c.isDigit = true) ∧
    (∀ c ∈ g.2.2, c.isDigit = true) ∧
    isDelim c1 = true ∧ isDelim c2 = true ∧
    n = g.1.length + g.2.1.length + g.2.2.length + 7

/-- Match of the citation-marker pattern at absolute index `i` of `s`:
returns the end index (exclusive) and the digit groups. -/
def matchMarkerAt (s : List Char) (i : Nat) : Option (Nat × Groups) :=
  (matchMarkerSuffix (s.drop i)).map (fun r => (i + r.1, r.2))

/-- `re.finditer` of the marker pattern: scan left to right, emit each
non-overlapping match `(start, end)`, resume after a match's end. -/
def findMarkersFrom (s : List Char) : Nat → Nat → List (Nat × Nat)
  | _, 0 => []
  | i, fuel + 1 =>
    if i < s.length then
      match matchMarkerAt s i with
      | some (j, _) => (i, j) :: findMarkersFrom s j fuel
      | none => findMarkersFrom s (i + 1) fuel
    else []

/-- All non-overlapping matches of the marker pattern in `s`, left to right. -/
def findMarkers (s : List Char) : List (Nat × Nat) :=
  findMarkersFrom s 0 (s.length + 1)

/-- `re.search` of the marker pattern: the leftmost position carrying a match,
with its end index and groups (scans every position, no non-overlap skipping). -/
def searchMarkerFrom (s : List Char) : Nat → Nat → Option (Nat × Nat × Groups)
  | _, 0 => none
  | i, fuel + 1 =>
    if i < s.length then
      match matchMarkerAt s i with
      | some (j, g) => some (i, j, g)
      | none => searchMarkerFrom s (i + 1) fuel
    else none

/-- `re.search` of the marker pattern over the whole of `s`. -/
def searchMarker (s : List Char) : Option (Nat × Nat × Groups) :=
  searchMarkerFrom s 0 (s.length + 1)

/-- Whether the marker pattern matches anywhere in `s` (`re.search` as a test). -/
def hasMarker (s : List Char) : Bool := (searchMarker s).isSome

/-! ## The sentence-boundary extractor (`extract_sentences_with_sutra`) -/

/-- Character of `t` at index `i` (all uses are in range, mirroring `text[i]`). -/
def charAt (t : List Char) (i : Nat) : Char := t.getD i (Char.ofNat 0)

/-- Python `str.rfind` restricted to one character: the greatest index of `c`
in `l`, if any. -/
def rfindChar (c : Char) : List Char → Option Nat
  | [] => none
  | a :: l =>
    match rfindChar c l with
    | some k => some (k + 1)
    | none => if a = c then some 0 else none

/-- The backward scan's internal-delimiter test at danda candidate `i`
(lines 91–107 of `SutraPrayogaExtract.py`): take the window
`text[max(0, i-50):i+1]`, find the last `'('` in it; the candidate is
rejected (scan continues) when such a `'('` exists with no `')'` between it
and the candidate. -/
def dandaRejected (t : List Char) (i : Nat) : Bool :=
  ((rfindChar '(' (slice t (i - 50) (i + 1))).map
      (fun k => !(((slice t (i - 50) (i + 1)).drop k).contains ')'))).getD false

/-- The backward scan for the left sentence boundary
(`for i in range(sutra_start - 1, -1, -1)`): called with the occurrence's
start, examines indices downward; the first danda candidate that is not
rejected yields boundary `i + 1`; exhaustion yields `0`. -/
def scanBack (t : List Char) : Nat → Nat
  | 0 => 0
  | j + 1 =>
    if isDanda (charAt t j) && !dandaRejected t j then j + 1 else scanBack t j

/-- First index `k ≥ i` with `P k`, examining `fuel` consecutive indices
(the shape of the code's `for i in range(lo, hi)` searches with a `break`). -/
def firstIdxFrom (P : Nat → Bool) : Nat → Nat → Option Nat
  | _, 0 => none
  | i, fuel + 1 => if P i then some i else firstIdxFrom P (i + 1) fuel

/-- End position (absolute) of the last marker match in the fixed 200-character
window preceding `start` (`text[max(0, sutra_start-200):sutra_start]`). -/
def prevSutraEnd (t : List Char) (start : Nat) : Option Nat :=
  ((findMarkers (slice t (start - 200) start)).getLast?).map (fun m => start - 200 + m.2)

/-- The comma-acceptance test: the text strictly between the comma at `i` and
`start`, stripped, is non-empty and marker-free. -/
def commaCond (t : List Char) (start i : Nat) : Bool :=
  let between := pyStrip (slice t (i + 1) start)
  !between.isEmpty && !hasMarker between

/-- The comma-start rule (lines 57–76): if the preceding window holds a
previous marker, search from just after it up to `start` for the first comma
whose following text is non-empty and marker-free; the boundary is one past
that comma. -/
def commaStart (t : List Char) (start : Nat) : Option Nat :=
  (prevSutraEnd t start).bind (fun lo =>
    (firstIdxFrom (fun i => charAt t i = ',' && commaCond t start i) lo (start - lo)).map
      (· + 1))

/-- Left boundary of the span for an occurrence starting at `start`:
the comma rule takes precedence, otherwise the backward danda scan. -/
def sentenceStart (t : List Char) (start : Nat) : Nat :=
  (commaStart t start).getD (scanBack t start)

/-- The forward scan's acceptance test at danda candidate `i` for an
occurrence ending at `e`: the open-parenthesis count of `text[e:i]` does not
exceed its close-parenthesis count. -/
def fwdAccept (t : List Char) (e i : Nat) : Bool :=
  (slice t e i).count '(' ≤ (slice t e i).count ')'

/-- Forward scan for the right boundary (lines 109–120): first accepted danda
at or after `e` yields `i + 1` (the danda is included); none yields the text
length. -/
def sentenceEndScan (t : List Char) (e : Nat) : Nat :=
  ((firstIdxFrom (fun i => isDanda (charAt t i) && fwdAccept t e i) e (t.length - e)).map
    (· + 1)).getD t.length

/-- The multi-citation shrink (lines 122–133): if another marker occurs in
`text[e:se]`, shrink the end to the first comma between `e` and that marker's
start, when one exists. -/
def shrinkEnd (t : List Char) (e se : Nat) : Nat :=
  ((searchMarker (slice t e se)).map (fun m =>
      (firstIdxFrom (fun i => charAt t i = ',') e (e + m.1 - e)).getD se)).getD se

/-- Right boundary of the span for an occurrence ending at `e`. -/
def sentenceEnd (t : List Char) (e : Nat) : Nat :=
  shrinkEnd t e (sentenceEndScan t e)

/-- The (stripped) span produced for the occurrence `m = (start, end)`. -/
def spanFor (t : List Char) (m : Nat × Nat) : List Char :=
  pyStrip (slice t (sentenceStart t m.1) (sentenceEnd t m.2))

/-- `extract_sentences_with_sutra`: one span per marker occurrence, left to
right, keeping only non-empty spans not already produced. -/
def extract (t : List Char) : List (List Char) :=
  (findMarkers t).foldl
    (fun acc m =>
      if !(spanFor t m).isEmpty && !acc.contains (spanFor t m) then acc ++ [spanFor t m]
      else acc) []

/-! ## The citation normalizer (`SutraSentenceProcessor`) -/

/-- A normalized Sutra Reference Record: the citation's three digit groups,
the explained word (empty at creation) and the cleaned sentence. -/
structure SutraRecord where
  sutra : Groups
  word : List Char
  sentence : List Char
deriving DecidableEq, Repr

/-- The citation triple of a record, as integers. -/
def SutraRecord.triple (r : SutraRecord) : Nat × Nat × Nat :=
  (digitsToNat r.sutra.1, digitsToNat r.sutra.2.1, digitsToNat r.sutra.2.2)

/-- The integer triple of the groups `g`. -/
def groupsTriple (g : Groups) : Nat × Nat × Nat :=
  (digitsToNat g.1, digitsToNat g.2.1, digitsToNat g.2.2)

/-- `extract_sutra_reference`: the digit groups of the first (`re.search`)
marker match in the span, if any. -/
def extractSutraReference (s : List Char) : Option Groups :=
  (searchMarker s).map (·.2.2)

/-- `re.sub(pattern, '', text)` for the marker pattern: scan left to right,
delete each non-overlapping match. -/
def removeMarkersAux (l : List Char) : Nat → List Char
  | 0 => l
  | fuel + 1 =>
    match l with
    | [] => []
    | c :: rest =>
      match matchMarkerSuffix (c :: rest) with
      | some (n, _) => removeMarkersAux ((c :: rest).drop n) fuel
      | none => c :: removeMarkersAux rest fuel

def removeMarkers (l : List Char) : List Char := removeMarkersAux l l.length

/-- Cleaning step 2: `re.sub(r'^\s*\d+\)\s*[।॥]*\s*', '', ...)` — leading
whitespace, a digit run, `')'`, then whitespace, dandas, whitespace, all
removed when the digit run and `')'` are present. -/
def stripLeadingDebris (l : List Char) : List Char :=
  if ((l.dropWhile isSpace).takeWhile (·.isDigit)).isEmpty then l
  else if ((l.dropWhile isSpace).dropWhile (·.isDigit)).head? = some ')' then
    (((((l.dropWhile isSpace).dropWhile (·.isDigit)).tail).dropWhile
        isSpace).dropWhile isDanda).dropWhile isSpace
  else l

/-- Cleaning step 3: `re.sub(r'\s+', ' ', ...)` — each maximal whitespace run
becomes one space. -/
def collapseAux (l : List Char) : Nat → List Char
  | 0 => l
  | fuel + 1 =>
    match l with
    | [] => []
    | c :: rest =>
      if isSpace c then ' ' :: collapseAux (rest.dropWhile isSpace) fuel
      else c :: collapseAux rest fuel

def collapseSpaces (l : List Char) : List Char := collapseAux l l.length

/-- Cleaning step 5: `re.sub(r'^[।॥]+\s*', '', ...)`. -/
def stripLeadingDandas (l : List Char) : List Char :=
  if (l.takeWhile isDanda).isEmpty then l
  else (l.dropWhile isDanda).dropWhile isSpace

/-- `clean_sentence`: remove all markers, strip leading numeric debris,
collapse whitespace, strip, remove leading dandas, strip. -/
def cleanSentence (l : List Char) : List Char :=
  pyStrip (stripLeadingDandas (pyStrip (collapseSpaces (stripLeadingDebris (removeMarkers l)))))

/-- `process_sentence`: the first marker's groups plus the cleaned text, or
nothing when the span has no marker. -/
def processSentence (l : List Char) : Option SutraRecord :=
  (extractSutraReference l).map (fun g => ⟨g, [], cleanSentence l⟩)

/-- Digit groups of the marker occurrence at index `i`. -/
def markerGroupsAt (t : List Char) (i : Nat) : Groups :=
  ((matchMarkerAt t i).map (fun r => r.2)).getD ([], [], [])

/-- The per-sentence body of `process_sentences`: with more than one marker,
one record per occurrence, all sharing the cleaned text; otherwise the
single-marker logic, keeping the record only when its cleaned text is
non-empty. -/
def processSentenceList (l : List Char) : List SutraRecord :=
  if 1 < (findMarkers l).length then
    (findMarkers l).map (fun m => ⟨markerGroupsAt l m.1, [], cleanSentence l⟩)
  else
    ((processSentence l).map (fun r => if !r.sentence.isEmpty then [r] else [])).getD []

/-- `process_sentences` over a list of spans. -/
def processSentences (ls : List (List Char)) : List SutraRecord :=
  ls.flatMap processSentenceList

/-! ## The word-enrichment pass (`WordFiller.fill_empty_words`) -/

/-- One `sutra_sentences` element of an extract file. -/
structure ExtractEntry where
  sutra : List Char
  word : List Char
  sentence : List Char
deriving DecidableEq, Repr

/-- One verse entry of an extract file. -/
structure ExtractVerse where
  loc : List Char
  v : List Char
  sutra_sentences : List ExtractEntry
deriving DecidableEq, Repr

/-- The body of the inner loop of `fill_empty_words` on one record: a record
with a non-empty word is skipped (`continue`) without consulting the service;
otherwise the service (`find_word`, modelled as the oracle argument) is
called once and a non-empty answer is written into the word field.  Returns
the record together with the number of service calls made for it. -/
def fillEntry (oracle : List Char → List Char → List Char → List Char → List Char → List Char)
    (commentary loc verseText : List Char) (e : ExtractEntry) : ExtractEntry × Nat :=
  if !e.word.isEmpty then (e, 0)
  else
    let w := oracle e.sutra e.sentence loc commentary verseText
    if !w.isEmpty then ({ e with word := w }, 1) else (e, 1)

/-- The per-verse loop of `fill_empty_words` (`commentaryMap` models the
`commentary_map` lookup, defaulting to the empty string). -/
def fillVerse (oracle : List Char → List Char → List Char → List Char → List Char → List Char)
    (commentaryMap : List Char → List Char) (v : ExtractVerse) : ExtractVerse × Nat :=
  let results := v.sutra_sentences.map (fillEntry oracle (commentaryMap v.loc) v.loc v.v)
  ({ v with sutra_sentences := results.map (·.1) }, (results.map (·.2)).sum)

/-! ## The aggregator's final ordering (`sort_sutra_dict`) -/

/-- `str.split('.')`. -/
def splitDot (s : List Char) : List (List Char) :=
  match s with
  | [] => [[]]
  | c :: rest =>
    if c = '.' then [] :: splitDot rest
    else
      match splitDot rest with
      | p :: ps => (c :: p) :: ps
      | [] => [[c]]

/-- `int(p)` as used on citation key parts: a non-empty digit string parses
to its value, anything else raises (mapped to `none`). -/
def parsePart (p : List Char) : Option Nat :=
  if !p.isEmpty && p.all (·.isDigit) then some (digitsToNat p) else none

/-- `sutra_key`: the tuple of parsed parts, or the `(inf,)` fallback (`none`)
when any part fails to parse. -/
def sutraKey (s : List Char) : Option (List Nat) :=
  let parts := (splitDot s).map parsePart
  if parts.all (·.isSome) then some (parts.map (fun o => o.getD 0)) else none

/-- Python's lexicographic tuple comparison on number tuples (`≤`). -/
def natListLE : List Nat → List Nat → Bool
  | [], _ => true
  | _ :: _, [] => false
  | a :: as, b :: bs => if a < b then true else if b < a then false else natListLE as bs

/-- The sort key order: `(inf,)` (`none`) sorts after every parsed tuple. -/
def keyLE (x y : Option (List Nat)) : Bool :=
  match x, y with
  | none, none => true
  | none, some _ => false
  | some _, none => true
  | some a, some b => natListLE a b

/-- `sort_sutra_dict`: Python's stable `sorted` of the dictionary items by
the parsed key, modelled on the association list of the dictionary. -/
def sortSutraDict {α : Type} (l : List (List Char × α)) : List (List Char × α) :=
  l.mergeSort (fun x y => keyLE (sutraKey x.1) (sutraKey y.1))

/-! ## Specification-side definitions

These are written from the spec's words, for comparison against the code's
definitions above. -/

/-- Spec C1, as stated (no window): the nearest preceding open parenthesis
exists and has no matching close parenthesis between it and the candidate
position `i`. -/
def NearestOpenUnmatched (t : List Char) (i : Nat) : Prop :=
  ∃ j, j < i ∧ charAt t j = '(' ∧
    (∀ k, j < k → k < i → charAt t k ≠ '(') ∧
    (∀ k, j ≤ k → k ≤ i → charAt t k ≠ ')')

/-- Spec C1 amended: the same condition restricted to the code's fixed
50-character window before the candidate. -/
def WindowOpenUnmatched (t : List Char) (i : Nat) : Prop :=
  ∃ j, j < i ∧ i ≤ j + 50 ∧ charAt t j = '(' ∧
    (∀ k, j < k → k < i → charAt t k ≠ '(') ∧
    (∀ k, j ≤ k → k ≤ i → charAt t k ≠ ')')

/-- Spec C2: a delimiter candidate `i` for an occurrence ending at `e` is
acceptable when the open-parenthesis count of the text strictly between `e`
and `i` does not exceed the close-parenthesis count (the delimiter is not
inside a still-open bracketed citation started in this lookahead). -/
def DelimAccepted (t : List Char) (e i : Nat) : Prop :=
  isDanda (charAt t i) = true ∧ (slice t e i).count '(' ≤ (slice t e i).count ')'

/-- Spec C3: position `i` is a comma between the previous marker's end and
the occurrence start, with non-empty, marker-free text after it. -/
def CommaOK (t : List Char) (start i : Nat) : Prop :=
  charAt t i = ',' ∧ pyStrip (slice t (i + 1) start) ≠ [] ∧
    hasMarker (pyStrip (slice t (i + 1) start)) = false

/-- Spec-side removal of every marker occurrence: concatenate the gaps of
`t` around the listed (disjoint, ordered) occurrence ranges, starting the
first gap at `pos`. -/
def deleteRanges (t : List Char) : List (Nat × Nat) → Nat → List Char
  | [], pos => t.drop pos
  | m :: ms, pos => slice t pos m.1 ++ deleteRanges t ms m.2

/-- `t` with every marker occurrence found by the scanner deleted. -/
def removeAllOccurrences (t : List Char) : List Char :=
  deleteRanges t (findMarkers t) 0

/-- Spec C10: lexicographic integer order on citation triples — chapter,
then section, then rule. -/
def TripleLE (a b : Nat × Nat × Nat) : Prop :=
  a.1 < b.1 ∨ (a.1 = b.1 ∧ (a.2.1 < b.2.1 ∨ (a.2.1 = b.2.1 ∧ a.2.2 ≤ b.2.2)))

/-- The spec-side scan predicates are plain decidable conditions. -/
instance (t : List Char) (e i : Nat) : Decidable (DelimAccepted t e i) := by
  unfold DelimAccepted; exact inferInstance

instance (t : List Char) (start i : Nat) : Decidable (CommaOK t start i) := by
  unfold CommaOK; exact inferInstance

/-! ## Concrete example inputs used by claims and witnesses -/

/-- The C1 example text (spec: delimiter-inside-marker case). -/
def exC1 : List Char := "S1। `x` (पा.1।2।70) इति S2।".toList

/-- The span expected for `exC1`. -/
def exC1span : List Char := "`x` (पा.1।2।70) इति S2।".toList

/-- Counterexample input for C1 as stated: an unmatched `'('` lies 56
positions before the danda candidate, outside the code's 50-character
window, so the code accepts the candidate although the claim's windowless
condition mandates rejection. -/
def cexC1 : List Char := '(' :: (List.replicate 55 'a' ++ "।(पा.1।2।70)".toList)

/-- The spec's running example (§8). -/
def exSpec : List Char :=
  "माता च पिता च पितरौ, `पिता मात्रा` (पा.1।2।70) इति द्वन्द्वैकशेषः।".toList

/-- Counterexample input for C5 as stated: deleting the inner marker of this
extract-produced span splices the surrounding text into a fresh marker-shaped
substring, so the cleaned text is not marker-free. -/
def cexC5 : List Char := "(पा.1|1(पा.2|2|2)|1)।".toList

/-- A span holding two markers with no separating comma, for C4. -/
def exC4 : List Char := "`अ` (पा.1।2।70) `ब` (पा.3।3।57) इति।".toList

/-- A bare single-marker input. -/
def exBare : List Char := "(पा.1।2।3)".toList

/-- Two comma-separated citations in one sentence, for the C3 comma rule. -/
def exC3 : List Char := "`क` (पा.1।1।1) इति, `ख` (पा.2।2।2) इति।".toList

/-- A two-element citation table whose integer order differs from its string
order, plus a third key, for C10. -/
def sortW : List (List Char × Nat) :=
  [("10.1.1".toList, 1), ("2.1.1".toList, 2), ("1.2.70".toList, 3)]

/-- A constant answer oracle standing in for the generative-text service. -/
def oracleW : List Char → List Char → List Char → List Char → List Char → List Char :=
  fun _ _ _ _ _ => ['न']

/-- An empty commentary map. -/
def cmW : List Char → List Char := fun _ => []

/-- An already-enriched record (non-empty word). -/
def eW1 : ExtractEntry := ⟨"1.2.3".toList, "पद".toList, "वाक्यम्".toList⟩

/-- A record awaiting enrichment (empty word). -/
def eW2 : ExtractEntry := ⟨"1.2.3".toList, [], "वाक्यम्".toList⟩

/-- A verse entry holding both records. -/
def vW : ExtractVerse := ⟨"1.1".toList, "वृक्षः".toList, [eW1, eW2]⟩

/-! ## Character-class lemmas -/

theorem digit_not_space {c : Char} (h : c.isDigit = true) : isSpace c = false := by
  have h0 : ('0' : Char) ≤ c := by
    simp only [Char.isDigit, Bool.and_eq_true, decide_eq_true_eq] at h
    exact h.1
  have h9 : c ≤ '9' := by
    simp only [Char.isDigit, Bool.and_eq_true, decide_eq_true_eq] at h
    exact h.2
  have hne : c ≠ ' ' ∧ c ≠ '\t' ∧ c ≠ '\r' ∧ c ≠ '\n' := by
    refine ⟨?_, ?_, ?_, ?_⟩ <;> rintro rfl <;> revert h0 h9 <;> decide
  simp only [isSpace, Char.isWhitespace]
  simp [hne.1, hne.2.1, hne.2.2.1, hne.2.2.2]

theorem digit_ne_open {c : Char} (h : c.isDigit = true) : c ≠ '(' := by
  rintro rfl; revert h; decide

theorem digit_ne_close {c : Char} (h : c.isDigit = true) : c ≠ ')' := by
  rintro rfl; revert h; decide

theorem digit_not_delim {c : Char} (h : c.isDigit = true) : isDelim c = false := by
  have : c ≠ '।' ∧ c ≠ '|' := by
    constructor <;> rintro rfl <;> revert h <;> decide
  simp [isDelim, this.1, this.2]

theorem delim_not_digit {c : Char} (h : isDelim c = true) : c.isDigit = false := by
  simp only [isDelim, Bool.or_eq_true, decide_eq_true_eq] at h
  rcases h with rfl | rfl <;> decide

theorem delim_not_space {c : Char} (h : isDelim c = true) : isSpace c = false := by
  simp only [isDelim, Bool.or_eq_true, decide_eq_true_eq] at h
  rcases h with rfl | rfl <;> decide

theorem delim_ne_open {c : Char} (h : isDelim c = true) : c ≠ '(' := by
  simp only [isDelim, Bool.or_eq_true, decide_eq_true_eq] at h
  rcases h with rfl | rfl <;> decide

theorem danda_ne_open {c : Char} (h : isDanda c = true) : c ≠ '(' := by
  simp only [isDanda, Bool.or_eq_true, decide_eq_true_eq] at h
  rcases h with rfl | rfl <;> decide

theorem danda_ne_close {c : Char} (h : isDanda c = true) : c ≠ ')' := by
  simp only [isDanda, Bool.or_eq_true, decide_eq_true_eq] at h
  rcases h with rfl | rfl <;> decide

/-! ## takeWhile / dropWhile on a decomposed list -/

theorem takeWhile_append_cons {P : Char → Bool} {d : List Char} {c : Char} (r : List Char)
    (h1 : ∀ x ∈ d, P x = true) (h2 : P c = false) :
    (d ++ c :: r).takeWhile P = d := by
  induction d with
  | nil => simp [List.takeWhile_cons, h2]
  | cons a d ih =>
    have ha : P a = true := h1 a (List.mem_cons_self a d)
    simp only [List.cons_append, List.takeWhile_cons, ha, if_true]
    rw [ih (fun x hx => h1 x (List.mem_cons_of_mem a hx))]

theorem dropWhile_append_cons {P : Char → Bool} {d : List Char} {c : Char} (r : List Char)
    (h1 : ∀ x ∈ d, P x = true) (h2 : P c = false) :
    (d ++ c :: r).dropWhile P = c :: r := by
  induction d with
  | nil => simp [List.dropWhile_cons, h2]
  | cons a d ih =>
    have ha : P a = true := h1 a (List.mem_cons_self a d)
    simp only [List.cons_append, List.dropWhile_cons, ha, if_true]
    exact ih (fun x hx => h1 x (List.mem_cons_of_mem a hx))

/-! ## The marker-match characterization -/

theorem matchMarkerSuffix_iff {l : List Char} {n : Nat} {g : Groups} :
    matchMarkerSuffix l = some (n, g) ↔ MarkerShape n g l := by
  constructor
  · intro h
    match l with
    | [] => simp [matchMarkerSuffix] at h
    | [a] => simp [matchMarkerSuffix] at h
    | [a, b] => simp [matchMarkerSuffix] at h
    | [a, b, c] => simp [matchMarkerSuffix] at h
    | c0 :: ca :: cb :: cc :: rest =>
      rw [matchMarkerSuffix] at h
      by_cases hc : c0 = '(' ∧ ca = 'प' ∧ cb = 'ा' ∧ cc = '.'
      · rw [if_pos hc] at h
        obtain ⟨rfl, rfl, rfl, rfl⟩ := hc
        cases hr : rest.dropWhile (·.isDigit) with
        | nil => rw [hr] at h; simp at h
        | cons c1 r2 =>
          rw [hr] at h
          simp only [] at h
          by_cases hc1 : (rest.takeWhile (·.isDigit)).isEmpty = true ∨ ¬isDelim c1 = true
          · rw [if_pos hc1] at h; simp at h
          · rw [if_neg hc1] at h
            push_neg at hc1
            obtain ⟨hd1ne, hdel1⟩ := hc1
            cases hr2 : r2.dropWhile (·.isDigit) with
            | nil => rw [hr2] at h; simp at h
            | cons c2 r4 =>
              rw [hr2] at h
              simp only [] at h
              by_cases hc2 : (r2.takeWhile (·.isDigit)).isEmpty = true ∨ ¬isDelim c2 = true
              · rw [if_pos hc2] at h; simp at h
              · rw [if_neg hc2] at h
                push_neg at hc2
                obtain ⟨hd2ne, hdel2⟩ := hc2
                cases hr4 : r4.dropWhile (·.isDigit) with
                | nil => rw [hr4] at h; simp at h
                | cons c3 r6 =>
                  rw [hr4] at h
                  simp only [] at h
                  by_cases hc3 : (r4.takeWhile (·.isDigit)).isEmpty = true ∨ ¬c3 = ')'
                  · rw [if_pos hc3] at h; simp at h
                  · rw [if_neg hc3] at h
                    push_neg at hc3
                    obtain ⟨hd3ne, hcl⟩ := hc3
                    rw [Option.some_inj, Prod.mk.injEq] at h
                    obtain ⟨hn, hg⟩ := h
                    have e1 : rest = rest.takeWhile (·.isDigit) ++ c1 :: r2 := by
                      conv_lhs => rw [← List.takeWhile_append_dropWhile
                        (p := (·.isDigit)) (l := rest)]
                      rw [hr]
                    have e2 : r2 = r2.takeWhile (·.isDigit) ++ c2 :: r4 := by
                      conv_lhs => rw [← List.takeWhile_append_dropWhile
                        (p := (·.isDigit)) (l := r2)]
                      rw [hr2]
                    have e3 : r4 = r4.takeWhile (·.isDigit) ++ ')' :: r6 := by
                      conv_lhs => rw [← List.takeWhile_append_dropWhile
                        (p := (·.isDigit)) (l := r4)]
                      rw [hr4, hcl]
                    refine ⟨c1, c2, r6, ?_, ?_, ?_, ?_, ?_, ?_, ?_, hdel1, hdel2, ?_⟩
                    · rw [← hg]
                      simp only []
                      conv_lhs => rw [e1, e2, e3]
                    · rw [← hg]; simpa [List.isEmpty_iff] using hd1ne
                    · rw [← hg]; simpa [List.isEmpty_iff] using hd2ne
                    · rw [← hg]; simpa [List.isEmpty_iff] using hd3ne
                    · rw [← hg]; exact fun c hc => List.mem_takeWhile_imp hc
                    · rw [← hg]; exact fun c hc => List.mem_takeWhile_imp hc
                    · rw [← hg]; exact fun c hc => List.mem_takeWhile_imp hc
                    · rw [← hg]; simp only []; omega
      · rw [if_neg hc] at h; simp at h
  · rintro ⟨c1, c2, rest, rfl, h1ne, h2ne, h3ne, h1d, h2d, h3d, hdel1, hdel2, hn⟩
    have nd1 : (c1.isDigit : Bool) = false := delim_not_digit hdel1
    have nd2 : (c2.isDigit : Bool) = false := delim_not_digit hdel2
    have ndp : (Char.isDigit ')') = false := by decide
    have e1t := takeWhile_append_cons (P := (·.isDigit)) (d := g.1)
      (c := c1) (g.2.1 ++ c2 :: (g.2.2 ++ ')' :: rest)) h1d nd1
    have e1d := dropWhile_append_cons (P := (·.isDigit)) (d := g.1)
      (c := c1) (g.2.1 ++ c2 :: (g.2.2 ++ ')' :: rest)) h1d nd1
    have e2t := takeWhile_append_cons (P := (·.isDigit)) (d := g.2.1)
      (c := c2) (g.2.2 ++ ')' :: rest) h2d nd2
    have e2d := dropWhile_append_cons (P := (·.isDigit)) (d := g.2.1)
      (c := c2) (g.2.2 ++ ')' :: rest) h2d nd2
    have e3t := takeWhile_append_cons (P := (·.isDigit)) (d := g.2.2)
      (c := ')') rest h3d ndp
    have e3d := dropWhile_append_cons (P := (·.isDigit)) (d := g.2.2)
      (c := ')') rest h3d ndp
    rw [matchMarkerSuffix]
    rw [if_pos ⟨rfl, rfl, rfl, rfl⟩]
    rw [e1d]
    simp only []
    rw [if_neg (by rw [e1t]; simp [List.isEmpty_iff, h1ne, hdel1])]
    rw [e2d]
    simp only []
    rw [if_neg (by rw [e2t]; simp [List.isEmpty_iff, h2ne, hdel2])]
    rw [e3d]
    simp only []
    rw [if_neg (by rw [e3t]; simp [List.isEmpty_iff, h3ne])]
    rw [e1t, e2t, e3t]
    simp only [Option.some_inj, Prod.mk.injEq]
    exact ⟨by omega, trivial⟩

/-- A successful match decomposes its suffix as the marker text followed by
the remainder, and the marker text consists of non-whitespace characters
with `'('` only at its head. -/
theorem markerShape_decomp {n : Nat} {g : Groups} {l : List Char} (h : MarkerShape n g l) :
    ∃ A rest, l = A ++ rest ∧ A.length = n ∧ MarkerShape n g A ∧
      (∀ c ∈ A, isSpace c = false) ∧
      (∀ c ∈ A.tail, c ≠ '(') := by
  obtain ⟨c1, c2, rest, hl, h1ne, h2ne, h3ne, h1d, h2d, h3d, hdel1, hdel2, hn⟩ := h
  refine ⟨'(' :: 'प' :: 'ा' :: '.' :: (g.1 ++ c1 :: (g.2.1 ++ c2 :: (g.2.2 ++ [')']))),
    rest, ?_, ?_, ?_, ?_, ?_⟩
  · rw [hl]; simp [List.append_assoc]
  · simp; omega
  · exact ⟨c1, c2, [], by simp, h1ne, h2ne, h3ne, h1d, h2d, h3d, hdel1, hdel2, hn⟩
  · intro c hc
    have hc' : c = '(' ∨ c = 'प' ∨ c = 'ा' ∨ c = '.' ∨ c ∈ g.1 ∨ c = c1 ∨
        c ∈ g.2.1 ∨ c = c2 ∨ c ∈ g.2.2 ∨ c = ')' := by
      simp only [List.mem_cons, List.mem_append, List.mem_singleton,
        List.not_mem_nil, or_false] at hc
      tauto
    rcases hc' with rfl | rfl | rfl | rfl | hm | rfl | hm | rfl | hm | rfl
    · decide
    · decide
    · decide
    · decide
    · exact digit_not_space (h1d c hm)
    · exact delim_not_space hdel1
    · exact digit_not_space (h2d c hm)
    · exact delim_not_space hdel2
    · exact digit_not_space (h3d c hm)
    · decide
  · intro c hc
    have hc' : c = 'प' ∨ c = 'ा' ∨ c = '.' ∨ c ∈ g.1 ∨ c = c1 ∨
        c ∈ g.2.1 ∨ c = c2 ∨ c ∈ g.2.2 ∨ c = ')' := by
      simp only [List.tail_cons, List.mem_cons, List.mem_append, List.mem_singleton,
        List.not_mem_nil, or_false] at hc
      tauto
    rcases hc' with rfl | rfl | rfl | hm | rfl | hm | rfl | hm | rfl
    · decide
    · decide
    · decide
    · exact digit_ne_open (h1d c hm)
    · exact delim_ne_open hdel1
    · exact digit_ne_open (h2d c hm)
    · exact delim_ne_open hdel2
    · exact digit_ne_open (h3d c hm)
    · decide

theorem matchMarkerSuffix_le_length {l : List Char} {n : Nat} {g : Groups}
    (h : matchMarkerSuffix l = some (n, g)) : n ≤ l.length ∧ 10 ≤ n := by
  obtain ⟨A, rest, hl, hA, hshape, _, _⟩ := markerShape_decomp (matchMarkerSuffix_iff.mp h)
  obtain ⟨c1, c2, r, _, h1ne, h2ne, h3ne, _, _, _, _, _, hn⟩ := hshape
  have l1 : 1 ≤ g.1.length := List.length_pos.mpr h1ne
  have l2 : 1 ≤ g.2.1.length := List.length_pos.mpr h2ne
  have l3 : 1 ≤ g.2.2.length := List.length_pos.mpr h3ne
  constructor
  · rw [hl]; simp; omega
  · omega

theorem matchMarkerSuffix_head {l : List Char} {n : Nat} {g : Groups}
    (h : matchMarkerSuffix l = some (n, g)) : ∃ tl, l = '(' :: tl := by
  obtain ⟨c1, c2, rest, hl, _⟩ := matchMarkerSuffix_iff.mp h
  exact ⟨_, hl⟩

/-- A match certified inside a truncated list is a match of the full list. -/
theorem matchMarkerSuffix_of_take {l : List Char} {k n : Nat} {g : Groups}
    (h : matchMarkerSuffix (l.take k) = some (n, g)) :
    matchMarkerSuffix l = some (n, g) := by
  obtain ⟨c1, c2, rest, hl, h1ne, h2ne, h3ne, h1d, h2d, h3d, hdel1, hdel2, hn⟩ :=
    matchMarkerSuffix_iff.mp h
  refine matchMarkerSuffix_iff.mpr ⟨c1, c2, rest ++ l.drop k, ?_, h1ne, h2ne, h3ne,
    h1d, h2d, h3d, hdel1, hdel2, hn⟩
  conv_lhs => rw [← List.take_append_drop k l]
  rw [hl]
  simp [List.append_assoc]

/-- The marker text itself matches the pattern (with nothing after it). -/
theorem matchMarkerSuffix_append {x v : List Char} {n : Nat} {g : Groups}
    (h : matchMarkerSuffix x = some (n, g)) :
    matchMarkerSuffix (x ++ v) = some (n, g) := by
  obtain ⟨c1, c2, rest, hl, h1ne, h2ne, h3ne, h1d, h2d, h3d, hdel1, hdel2, hn⟩ :=
    matchMarkerSuffix_iff.mp h
  refine matchMarkerSuffix_iff.mpr ⟨c1, c2, rest ++ v, ?_, h1ne, h2ne, h3ne,
    h1d, h2d, h3d, hdel1, hdel2, hn⟩
  rw [hl]; simp [List.append_assoc]

theorem matchMarkerAt_bounds {s : List Char} {i j : Nat} {g : Groups}
    (h : matchMarkerAt s i = some (j, g)) :
    i < j ∧ j ≤ s.length ∧ 10 ≤ j - i := by
  rw [matchMarkerAt, Option.map_eq_some'] at h
  obtain ⟨⟨n, g'⟩, hm, he⟩ := h
  simp only [Prod.mk.injEq] at he
  obtain ⟨he1, he2⟩ := he
  obtain ⟨hle, h10⟩ := matchMarkerSuffix_le_length hm
  rw [List.length_drop] at hle
  have hi : i < s.length := by
    by_contra hi
    push_neg at hi
    obtain ⟨tl, htl⟩ := matchMarkerSuffix_head hm
    rw [List.drop_eq_nil_of_le hi] at htl
    exact absurd htl (by simp)
  omega

/-- Transfer of a marker match out of a slice into the ambient text. -/
theorem matchMarkerAt_slice {t : List Char} {lo hi q r : Nat} {g : Groups}
    (h : matchMarkerAt (slice t lo hi) q = some (r, g)) :
    matchMarkerAt t (lo + q) = some (lo + r, g) := by
  rw [matchMarkerAt, Option.map_eq_some'] at h
  rw [matchMarkerAt, Option.map_eq_some']
  obtain ⟨⟨n, g'⟩, hm, he⟩ := h
  simp only [Prod.mk.injEq] at he
  obtain ⟨he1, he2⟩ := he
  refine ⟨(n, g'), ?_, by simp only [Prod.mk.injEq]; exact ⟨by omega, he2⟩⟩
  have hd : (slice t lo hi).drop q = (t.drop (lo + q)).take (hi - (lo + q)) := by
    simp only [slice]
    rw [List.drop_drop]
    rw [List.drop_take]
  rw [hd] at hm
  exact matchMarkerSuffix_of_take hm

/-! ## Properties of the `finditer` scan -/

theorem findMarkersFrom_fuel {s : List Char} :
    ∀ {f1 : Nat} {i : Nat} {f2 : Nat}, s.length + 1 ≤ f1 + i → s.length + 1 ≤ f2 + i →
      findMarkersFrom s i f1 = findMarkersFrom s i f2 := by
  intro f1
  induction f1 with
  | zero =>
    intro i f2 h1 h2
    cases f2 with
    | zero => rfl
    | succ f2 =>
      rw [findMarkersFrom, findMarkersFrom]
      rw [if_neg (by omega)]
  | succ f1 ih =>
    intro i f2 h1 h2
    cases f2 with
    | zero =>
      rw [findMarkersFrom, findMarkersFrom]
      rw [if_neg (by omega)]
    | succ f2 =>
      rw [findMarkersFrom, findMarkersFrom]
      by_cases hi : i < s.length
      · rw [if_pos hi, if_pos hi]
        cases hm : matchMarkerAt s i with
        | none =>
          simp only []
          exact ih (by omega) (by omega)
        | some v =>
          obtain ⟨j, g⟩ := v
          obtain ⟨hij, hj, _⟩ := matchMarkerAt_bounds hm
          simp only []
          rw [@ih j f2 (by omega) (by omega)]
      · rw [if_neg hi, if_neg hi]

theorem findMarkersFrom_sound {t : List Char} :
    ∀ {fuel i : Nat} {m : Nat × Nat}, m ∈ findMarkersFrom t i fuel →
      ∃ g, matchMarkerAt t m.1 = some (m.2, g) := by
  intro fuel
  induction fuel with
  | zero => intro i m h; simp [findMarkersFrom] at h
  | succ fuel ih =>
    intro i m h
    rw [findMarkersFrom] at h
    by_cases hi : i < t.length
    · rw [if_pos hi] at h
      cases hm : matchMarkerAt t i with
      | none => rw [hm] at h; exact ih h
      | some v =>
        obtain ⟨j, g⟩ := v
        rw [hm] at h
        rcases List.mem_cons.mp h with rfl | h
        · exact ⟨g, hm⟩
        · exact ih h
    · rw [if_neg hi] at h; simp at h

theorem findMarkers_sound {t : List Char} {m : Nat × Nat} (h : m ∈ findMarkers t) :
    ∃ g, matchMarkerAt t m.1 = some (m.2, g) :=
  findMarkersFrom_sound h

theorem findMarkers_bounds {t : List Char} {m : Nat × Nat} (h : m ∈ findMarkers t) :
    m.1 < m.2 ∧ m.2 ≤ t.length ∧ 10 ≤ m.2 - m.1 := by
  obtain ⟨g, hg⟩ := findMarkers_sound h
  exact matchMarkerAt_bounds hg

theorem findMarkersFrom_complete {t : List Char} {p q : Nat} {g : Groups}
    (h : matchMarkerAt t p = some (q, g)) :
    ∀ {fuel i : Nat}, i ≤ p → t.length + 1 ≤ fuel + i → (p, q) ∈ findMarkersFrom t i fuel := by
  have hpq := matchMarkerAt_bounds h
  intro fuel
  induction fuel with
  | zero => intro i h1 h2; omega
  | succ fuel ih =>
    intro i hip hfi
    rw [findMarkersFrom]
    have hi : i < t.length := by omega
    rw [if_pos hi]
    cases hm : matchMarkerAt t i with
    | none =>
      have hne : i ≠ p := by rintro rfl; rw [h] at hm; exact absurd hm (by simp)
      simp only []
      exact ih (by omega) (by omega)
    | some v =>
      obtain ⟨j, g2⟩ := v
      simp only []
      rcases Nat.eq_or_lt_of_le hip with rfl | hlt
      · rw [h] at hm
        have heq := Option.some_inj.mp hm
        simp only [Prod.mk.injEq] at heq
        rw [List.mem_cons]
        left
        rw [heq.1]
      · -- `p` cannot lie strictly inside the match at `i`:
        -- every character of the marker after its head differs from `'('`.
        obtain ⟨hij, hjle, _⟩ := matchMarkerAt_bounds hm
        have hpj : j ≤ p := by
          by_contra hpj
          push_neg at hpj
          rw [matchMarkerAt, Option.map_eq_some'] at hm
          obtain ⟨⟨n, g'⟩, hms, he⟩ := hm
          simp only [Prod.mk.injEq] at he
          obtain ⟨hej, heg⟩ := he
          obtain ⟨A, rest, hdec, hA, hshape, _, hno⟩ :=
            markerShape_decomp (matchMarkerSuffix_iff.mp hms)
          have hopen : t[p]? = some '(' := by
            rw [matchMarkerAt, Option.map_eq_some'] at h
            obtain ⟨⟨n2, g2'⟩, hms2, _⟩ := h
            obtain ⟨tl, htl⟩ := matchMarkerSuffix_head hms2
            have : t[p]? = (t.drop p)[0]? := by simp [List.getElem?_drop]
            rw [this, htl]
            simp
          have hinside : t[p]? = A[p - i]? := by
            have e1 : t[p]? = (t.drop i)[p - i]? := by
              rw [List.getElem?_drop]; congr 1; omega
            rw [e1, hdec, List.getElem?_append, if_pos (by omega)]
          obtain ⟨a, A', rfl⟩ : ∃ a A', A = a :: A' := by
            cases A with
            | nil => simp at hA; omega
            | cons a A' => exact ⟨a, A', rfl⟩
          have hpi : p - i = (p - i - 1) + 1 := by omega
          rw [hpi] at hinside
          have : t[p]? = A'[p - i - 1]? := by rw [hinside, List.getElem?_cons_succ]
          rw [hopen] at this
          have hmem : '(' ∈ A' := List.mem_iff_getElem?.mpr ⟨p - i - 1, this.symm⟩
          exact hno '(' (by simpa using hmem) rfl
        exact List.mem_cons_of_mem _ (ih (by omega) (by omega))

theorem findMarkers_complete {t : List Char} {p q : Nat} {g : Groups}
    (h : matchMarkerAt t p = some (q, g)) : (p, q) ∈ findMarkers t :=
  findMarkersFrom_complete h (Nat.zero_le p) (by omega)

theorem searchMarkerFrom_eq_head {t : List Char} :
    ∀ {fuel i : Nat}, searchMarkerFrom t i fuel =
      (findMarkersFrom t i fuel).head?.map (fun m => (m.1, m.2, markerGroupsAt t m.1)) := by
  intro fuel
  induction fuel with
  | zero => intro i; rfl
  | succ fuel ih =>
    intro i
    rw [searchMarkerFrom, findMarkersFrom]
    by_cases hi : i < t.length
    · rw [if_pos hi, if_pos hi]
      cases hm : matchMarkerAt t i with
      | none => exact ih
      | some v =>
        obtain ⟨j, g⟩ := v
        simp [markerGroupsAt, hm]
    · rw [if_neg hi, if_neg hi]; rfl

theorem searchMarker_eq_head {t : List Char} :
    searchMarker t = (findMarkers t).head?.map (fun m => (m.1, m.2, markerGroupsAt t m.1)) :=
  searchMarkerFrom_eq_head

theorem hasMarker_iff {t : List Char} : hasMarker t = true ↔ findMarkers t ≠ [] := by
  rw [hasMarker, searchMarker_eq_head]
  cases h : findMarkers t with
  | nil => simp
  | cons m ms => simp

/-! ## Characterizations of the boundary scans -/

theorem scanBack_le {t : List Char} : ∀ n, scanBack t n ≤ n := by
  intro n
  induction n with
  | zero => simp [scanBack]
  | succ j ih =>
    rw [scanBack]
    by_cases h : (isDanda (charAt t j) && !dandaRejected t j) = true
    · rw [if_pos h]
    · rw [if_neg h]; omega

theorem firstIdxFrom_eq_some_iff {P : Nat → Bool} :
    ∀ {fuel i k : Nat}, firstIdxFrom P i fuel = some k ↔
      (i ≤ k ∧ k < i + fuel ∧ P k = true ∧ ∀ j, i ≤ j → j < k → P j = false) := by
  intro fuel
  induction fuel with
  | zero => intro i k; simp [firstIdxFrom]; omega
  | succ fuel ih =>
    intro i k
    rw [firstIdxFrom]
    by_cases h : P i = true
    · rw [if_pos h]
      simp only [Option.some_inj]
      constructor
      · rintro rfl
        exact ⟨Nat.le_refl i, by omega, h, fun j h1 h2 => by omega⟩
      · rintro ⟨h1, h2, h3, h4⟩
        by_contra hne
        have : i < k := by omega
        have := h4 i (Nat.le_refl i) this
        rw [h] at this
        exact absurd this (by simp)
    · rw [if_neg h]
      rw [ih]
      constructor
      · rintro ⟨h1, h2, h3, h4⟩
        refine ⟨by omega, by omega, h3, fun j hj1 hj2 => ?_⟩
        rcases Nat.eq_or_lt_of_le hj1 with rfl | hj
        · simpa using h
        · exact h4 j hj hj2
      · rintro ⟨h1, h2, h3, h4⟩
        have hik : i ≠ k := by
          rintro rfl
          rw [h3] at h
          exact h rfl
        exact ⟨by omega, by omega, h3, fun j hj1 hj2 => h4 j (by omega) hj2⟩

theorem firstIdxFrom_eq_none_iff {P : Nat → Bool} :
    ∀ {fuel i : Nat}, firstIdxFrom P i fuel = none ↔
      ∀ j, i ≤ j → j < i + fuel → P j = false := by
  intro fuel
  induction fuel with
  | zero => intro i; simp [firstIdxFrom]; omega
  | succ fuel ih =>
    intro i
    rw [firstIdxFrom]
    by_cases h : P i = true
    · rw [if_pos h]
      constructor
      · intro hc; exact absurd hc (by simp)
      · intro hall
        have := hall i (Nat.le_refl i) (by omega)
        rw [h] at this
        exact absurd this (by simp)
    · rw [if_neg h]
      rw [ih]
      constructor
      · intro hall j hj1 hj2
        rcases Nat.eq_or_lt_of_le hj1 with rfl | hj
        · simpa using h
        · exact hall j hj (by omega)
      · intro hall j hj1 hj2
        exact hall j (by omega) (by omega)

/-! ## Indexing helpers -/

theorem slice_getElem? {t : List Char} {a b m : Nat} :
    (slice t a b)[m]? = if a + m < b then t[a + m]? else none := by
  simp only [slice]
  rw [List.getElem?_drop, List.getElem?_take]

theorem slice_length {t : List Char} {a b : Nat} :
    (slice t a b).length = min b t.length - a := by
  simp [slice]

theorem charAt_getElem? {t : List Char} {i : Nat} (h : i < t.length) :
    t[i]? = some (charAt t i) := by
  rw [charAt, List.getD_eq_getElem?_getD, List.getElem?_eq_getElem h]
  rfl

/-! ## `rfind` characterization -/

theorem contains_iff_mem {l : List Char} {c : Char} : l.contains c = true ↔ c ∈ l := by
  simp [List.contains, List.elem_iff]

theorem rfindChar_sound {c : Char} {l : List Char} : ∀ {k : Nat},
    rfindChar c l = some k → l[k]? = some c := by
  induction l with
  | nil => intro k h; simp [rfindChar] at h
  | cons a l ih =>
    intro k h
    rw [rfindChar] at h
    cases hr : rfindChar c l with
    | some k2 =>
      rw [hr] at h
      simp only [Option.some_inj] at h
      subst h
      rw [List.getElem?_cons_succ]
      exact ih hr
    | none =>
      rw [hr] at h
      simp only [] at h
      by_cases hac : a = c
      · rw [if_pos hac] at h
        simp only [Option.some_inj] at h
        subst h
        simp [hac]
      · rw [if_neg hac] at h
        exact absurd h (by simp)

theorem rfindChar_none_iff {c : Char} {l : List Char} :
    rfindChar c l = none ↔ ∀ m : Nat, l[m]? ≠ some c := by
  induction l with
  | nil => simp [rfindChar]
  | cons a l ih =>
    rw [rfindChar]
    cases hr : rfindChar c l with
    | some k2 =>
      simp only []
      constructor
      · intro h; exact absurd h (by simp)
      · intro hall
        have := hall (k2 + 1)
        rw [List.getElem?_cons_succ] at this
        exact absurd (rfindChar_sound hr) this
    | none =>
      simp only []
      constructor
      · intro h m
        by_cases hac : a = c
        · rw [if_pos hac] at h; exact absurd h (by simp)
        · cases m with
          | zero => simpa using hac
          | succ m => rw [List.getElem?_cons_succ]; exact (ih.mp hr) m
      · intro hall
        rw [if_neg (by simpa using hall 0)]

theorem rfindChar_max {c : Char} {l : List Char} : ∀ {k : Nat},
    rfindChar c l = some k → ∀ m : Nat, k < m → l[m]? ≠ some c := by
  induction l with
  | nil => intro k h; simp [rfindChar] at h
  | cons a l ih =>
    intro k h m hm
    rw [rfindChar] at h
    cases hr : rfindChar c l with
    | some k2 =>
      rw [hr] at h
      simp only [Option.some_inj] at h
      subst h
      obtain ⟨m2, rfl⟩ : ∃ m2, m = m2 + 1 := ⟨m - 1, by omega⟩
      rw [List.getElem?_cons_succ]
      exact ih hr m2 (by omega)
    | none =>
      rw [hr] at h
      by_cases hac : a = c
      · rw [if_pos hac] at h
        simp only [Option.some_inj] at h
        subst h
        obtain ⟨m2, rfl⟩ : ∃ m2, m = m2 + 1 := ⟨m - 1, by omega⟩
        rw [List.getElem?_cons_succ]
        exact rfindChar_none_iff.mp hr m2
      · rw [if_neg hac] at h
        exact absurd h (by simp)

theorem rfindChar_exists {c : Char} {l : List Char} : ∀ {j : Nat},
    l[j]? = some c → ∃ k, j ≤ k ∧ rfindChar c l = some k := by
  induction l with
  | nil => intro j h; simp at h
  | cons a l ih =>
    intro j h
    rw [rfindChar]
    cases hr : rfindChar c l with
    | some k2 =>
      refine ⟨k2 + 1, ?_, rfl⟩
      cases j with
      | zero => omega
      | succ j2 =>
        rw [List.getElem?_cons_succ] at h
        obtain ⟨k3, hk3, hk3e⟩ := ih h
        rw [hr] at hk3e
        simp only [Option.some_inj] at hk3e
        omega
    | none =>
      cases j with
      | zero =>
        simp only [List.getElem?_cons_zero, Option.some_inj] at h
        exact ⟨0, Nat.le_refl 0, by rw [if_pos h]⟩
      | succ j2 =>
        rw [List.getElem?_cons_succ] at h
        exact absurd h (rfindChar_none_iff.mp hr j2)

/-! ## The window condition of the backward scan (C1 core) -/

theorem dandaRejected_iff {t : List Char} {i : Nat} (hi : i < t.length)
    (hd : isDanda (charAt t i) = true) :
    dandaRejected t i = true ↔ WindowOpenUnmatched t i := by
  have hseglen : (slice t (i - 50) (i + 1)).length = i + 1 - (i - 50) := by
    rw [slice_length]; omega
  constructor
  · intro h
    rw [dandaRejected] at h
    cases hr : rfindChar '(' (slice t (i - 50) (i + 1)) with
    | none => rw [hr] at h; simp at h
    | some k =>
      rw [hr] at h
      simp only [Option.map_some', Option.getD_some, Bool.not_eq_true'] at h
      have hk := rfindChar_sound hr
      have hklen : k < (slice t (i - 50) (i + 1)).length :=
        (List.getElem?_eq_some_iff.mp hk).1
      rw [slice_getElem?, if_pos (by omega)] at hk
      have hji : i - 50 + k ≠ i := by
        intro hje
        exact danda_ne_open hd
          (Option.some_inj.mp ((charAt_getElem? hi).symm.trans (hje ▸ hk)))
      refine ⟨i - 50 + k, by omega, by omega, ?_, ?_, ?_⟩
      · exact Option.some_inj.mp ((charAt_getElem? (by omega)).symm.trans hk)
      · intro k2 hk2a hk2b hc
        have hg : t[k2]? = some '(' := by
          rw [charAt_getElem? (show k2 < t.length by omega), hc]
        have hmax := rfindChar_max hr (k2 - (i - 50)) (by omega)
        rw [slice_getElem?, if_pos (by omega)] at hmax
        rw [show i - 50 + (k2 - (i - 50)) = k2 by omega] at hmax
        exact hmax hg
      · intro k2 hk2a hk2b hc
        have hg : t[k2]? = some ')' := by
          rw [charAt_getElem? (show k2 < t.length by omega), hc]
        have hcont : (')' : Char) ∈ (slice t (i - 50) (i + 1)).drop k := by
          rw [List.mem_iff_getElem?]
          refine ⟨k2 - (i - 50) - k, ?_⟩
          rw [List.getElem?_drop, slice_getElem?, if_pos (by omega)]
          rw [show i - 50 + (k + (k2 - (i - 50) - k)) = k2 by omega]
          exact hg
        rw [← contains_iff_mem] at hcont
        rw [h] at hcont
        exact absurd hcont (by simp)
  · rintro ⟨j, hji, hjw, hjo, hmax, hnoc⟩
    have hjlen : j < t.length := by omega
    rw [dandaRejected]
    have hjget : t[j]? = some '(' := by rw [charAt_getElem? hjlen, hjo]
    have hsome : (slice t (i - 50) (i + 1))[j - (i - 50)]? = some '(' := by
      rw [slice_getElem?, if_pos (by omega)]
      rw [show i - 50 + (j - (i - 50)) = j by omega]
      exact hjget
    obtain ⟨k, hkge, hkeq⟩ := rfindChar_exists hsome
    have hkval := rfindChar_sound hkeq
    have hklen : k < (slice t (i - 50) (i + 1)).length :=
      (List.getElem?_eq_some_iff.mp hkval).1
    rw [slice_getElem?, if_pos (by omega)] at hkval
    have hkj : i - 50 + k = j := by
      by_contra hne
      rcases Nat.lt_or_ge (i - 50 + k) i with hlt | hge
      · exact hmax (i - 50 + k) (by omega) hlt
          (Option.some_inj.mp ((charAt_getElem? (by omega)).symm.trans hkval))
      · have he : i - 50 + k = i := by omega
        exact danda_ne_open hd
          (Option.some_inj.mp ((charAt_getElem? hi).symm.trans (he ▸ hkval)))
    rw [hkeq]
    simp only [Option.map_some', Option.getD_some, Bool.not_eq_true']
    rw [Bool.eq_false_iff]
    intro hcont
    rw [contains_iff_mem, List.mem_iff_getElem?] at hcont
    obtain ⟨m, hm⟩ := hcont
    rw [List.getElem?_drop, slice_getElem?] at hm
    by_cases hin : i - 50 + (k + m) < i + 1
    · rw [if_pos hin] at hm
      exact hnoc (i - 50 + (k + m)) (by omega) (by omega)
        (Option.some_inj.mp ((charAt_getElem? (by omega)).symm.trans hm))
    · rw [if_neg hin] at hm
      exact absurd hm (by simp)

/-! ## The backward scan at a danda candidate (C1 claim form) -/

theorem scanBack_succ {t : List Char} {i : Nat} (hd : isDanda (charAt t i) = true) :
    scanBack t (i + 1) ≠ i + 1 ↔ dandaRejected t i = true := by
  rw [scanBack]
  by_cases hr : dandaRejected t i = true
  · rw [if_neg (by simp [hd, hr])]
    have := scanBack_le (t := t) i
    constructor
    · intro _; exact hr
    · intro _; omega
  · have hrf : dandaRejected t i = false := by
      cases hx : dandaRejected t i
      · rfl
      · exact absurd hx hr
    rw [if_pos (by simp [hd, hrf])]
    simp [hrf]

/-! ## Strip and infix preservation -/

theorem infix_dropWhile {P : Char → Bool} {x l : List Char} (hx : x ≠ [])
    (hxs : ∀ c ∈ x, P c = false) (h : x <:+: l) : x <:+: l.dropWhile P := by
  obtain ⟨p, s, hps⟩ := h
  subst hps
  rw [List.append_assoc, List.dropWhile_append]
  by_cases hp : (p.dropWhile P).isEmpty = true
  · rw [if_pos hp]
    obtain ⟨c, x2, rfl⟩ : ∃ c x2, x = c :: x2 := by
      cases x with
      | nil => exact absurd rfl hx
      | cons c x2 => exact ⟨c, x2, rfl⟩
    have hkeep : List.dropWhile P ((c :: x2) ++ s) = (c :: x2) ++ s := by
      rw [List.cons_append, List.dropWhile_cons, hxs c (List.mem_cons_self c x2)]
      simp
    rw [hkeep]
    exact ⟨[], s, by simp⟩
  · rw [if_neg hp]
    exact ⟨p.dropWhile P, s, by rw [List.append_assoc]⟩

theorem infix_pyStrip {x l : List Char} (hx : x ≠ [])
    (hxs : ∀ c ∈ x, isSpace c = false) (h : x <:+: l) : x <:+: pyStrip l := by
  have h1 : x <:+: l.dropWhile isSpace := infix_dropWhile hx hxs h
  have h2 : x.reverse <:+: (l.dropWhile isSpace).reverse := List.reverse_infix.mpr h1
  have h3 : x.reverse <:+: ((l.dropWhile isSpace).reverse.dropWhile isSpace) :=
    infix_dropWhile (by simpa using hx)
      (fun c hc => hxs c (by simpa using hc)) h2
  have h4 := List.reverse_infix.mpr h3
  rw [List.reverse_reverse] at h4
  exact h4

/-! ## Slice algebra -/

theorem drop_take_infix (l : List Char) (k m : Nat) : (l.take m).drop k <:+: l := by
  refine ⟨(l.take m).take k, l.drop m, ?_⟩
  rw [List.take_append_drop, List.take_append_drop]

theorem marker_infix_slice {t : List Char} {s e A B : Nat}
    (h1 : A ≤ s) (h2 : s ≤ e) (h3 : e ≤ B) :
    slice t s e <:+: slice t A B := by
  have e1 : A + (e - A) = e := by omega
  have e2 : A + (s - A) = s := by omega
  have key : ((slice t A B).take (e - A)).drop (s - A) = slice t s e := by
    rw [slice, slice, List.take_drop, List.drop_drop, e2, List.take_take, e1,
      Nat.min_eq_left h3]
  rw [← key]
  exact drop_take_infix _ _ _

/-! ## Boundary bounds -/

theorem sentenceStart_le {t : List Char} {start : Nat} :
    sentenceStart t start ≤ start := by
  rw [sentenceStart]
  cases hc : commaStart t start with
  | none => simpa using scanBack_le (t := t) start
  | some p =>
    simp only [Option.getD_some]
    rw [commaStart, Option.bind_eq_some] at hc
    obtain ⟨lo, _, hf⟩ := hc
    rw [Option.map_eq_some'] at hf
    obtain ⟨i, hi, rfl⟩ := hf
    obtain ⟨hi1, hi2, _, _⟩ := firstIdxFrom_eq_some_iff.mp hi
    omega

theorem sentenceEndScan_bounds {t : List Char} {e : Nat} (he : e ≤ t.length) :
    e ≤ sentenceEndScan t e ∧ sentenceEndScan t e ≤ t.length := by
  rw [sentenceEndScan]
  cases hf : firstIdxFrom (fun i => isDanda (charAt t i) && fwdAccept t e i) e
      (t.length - e) with
  | none => simp only [Option.map_none', Option.getD_none]; omega
  | some i =>
    simp only [Option.map_some', Option.getD_some]
    obtain ⟨hi1, hi2, _, _⟩ := firstIdxFrom_eq_some_iff.mp hf
    omega

theorem searchMarker_mem {s : List Char} {p q : Nat} {g : Groups}
    (h : searchMarker s = some (p, q, g)) : (p, q) ∈ findMarkers s := by
  rw [searchMarker_eq_head] at h
  cases hf : findMarkers s with
  | nil => rw [hf] at h; simp at h
  | cons m ms =>
    rw [hf] at h
    simp only [List.head?_cons, Option.map_some', Option.some_inj, Prod.mk.injEq] at h
    have hm : m = (p, q) := Prod.ext h.1 h.2.1
    rw [hm.symm]
    exact List.mem_cons_self m ms

theorem sentenceEnd_bounds {t : List Char} {e : Nat} (he : e ≤ t.length) :
    e ≤ sentenceEnd t e ∧ sentenceEnd t e ≤ t.length := by
  rw [sentenceEnd, shrinkEnd]
  obtain ⟨h1, h2⟩ := sentenceEndScan_bounds he
  cases hs : searchMarker (slice t e (sentenceEndScan t e)) with
  | none => simp only [Option.map_none', Option.getD_none]; exact ⟨h1, h2⟩
  | some m =>
    simp only [Option.map_some', Option.getD_some]
    cases hfi : firstIdxFrom (fun i => charAt t i = ',') e (e + m.1 - e) with
    | none => simp only [Option.getD_none]; exact ⟨h1, h2⟩
    | some i =>
      simp only [Option.getD_some]
      obtain ⟨hi1, hi2, _, _⟩ := firstIdxFrom_eq_some_iff.mp hfi
      obtain ⟨ms, me, mg⟩ := m
      have hmem := searchMarker_mem hs
      obtain ⟨hb1, hb2, _⟩ := findMarkers_bounds hmem
      rw [slice_length] at hb2
      simp only [] at hi2 ⊢
      omega

/-! ## The marker text inside its slice -/

theorem matchMarkerAt_sliceText {t : List Char} {s e : Nat} {g : Groups}
    (h : matchMarkerAt t s = some (e, g)) :
    matchMarkerSuffix (slice t s e) = some (e - s, g) ∧
    (∀ c ∈ slice t s e, isSpace c = false) ∧ slice t s e ≠ [] := by
  rw [matchMarkerAt, Option.map_eq_some'] at h
  obtain ⟨⟨n, g2⟩, hms, he⟩ := h
  simp only [Prod.mk.injEq] at he
  obtain ⟨hen, heg⟩ := he
  obtain ⟨hlen, h10⟩ := matchMarkerSuffix_le_length hms
  obtain ⟨A, rest, hdec, hA, hshape, hnospace, _⟩ :=
    markerShape_decomp (matchMarkerSuffix_iff.mp hms)
  have hsl : slice t s e = A := by
    rw [slice, List.drop_take, hdec]
    rw [show e - s = A.length by omega, List.take_left]
  refine ⟨?_, ?_, ?_⟩
  · rw [hsl, show e - s = n by omega, ← heg]
    exact matchMarkerSuffix_iff.mpr hshape
  · rw [hsl]; exact hnospace
  · rw [hsl]
    intro hAe
    rw [hAe] at hA
    simp at hA
    omega

theorem marker_infix_spanFor {t : List Char} {m : Nat × Nat} (hm : m ∈ findMarkers t) :
    slice t m.1 m.2 <:+: spanFor t m := by
  obtain ⟨g, hg⟩ := findMarkers_sound hm
  obtain ⟨hlt, hle, _⟩ := matchMarkerAt_bounds hg
  obtain ⟨hmatch, hnospace, hne⟩ := matchMarkerAt_sliceText hg
  have hinfix : slice t m.1 m.2 <:+: slice t (sentenceStart t m.1) (sentenceEnd t m.2) :=
    marker_infix_slice sentenceStart_le (by omega) (sentenceEnd_bounds hle).1
  rw [spanFor]
  exact infix_pyStrip hne hnospace hinfix

theorem spanFor_ne_empty {t : List Char} {m : Nat × Nat} (hm : m ∈ findMarkers t) :
    spanFor t m ≠ [] := by
  obtain ⟨g, hg⟩ := findMarkers_sound hm
  obtain ⟨_, _, hne⟩ := matchMarkerAt_sliceText hg
  have hinf := marker_infix_spanFor hm
  intro h0
  rw [h0] at hinf
  exact hne (List.eq_nil_of_infix_nil hinf)

/-! ## Membership in the extractor output -/

theorem extract_mem {t : List Char} {sp : List Char} (h : sp ∈ extract t) :
    ∃ m ∈ findMarkers t, sp = spanFor t m := by
  rw [extract] at h
  have H : ∀ (ms : List (Nat × Nat)) (acc : List (List Char)),
      (∀ x ∈ acc, ∃ m ∈ findMarkers t, x = spanFor t m) →
      (∀ m ∈ ms, m ∈ findMarkers t) →
      ∀ x ∈ ms.foldl (fun acc m =>
          if !(spanFor t m).isEmpty && !acc.contains (spanFor t m) then acc ++ [spanFor t m]
          else acc) acc,
        ∃ m ∈ findMarkers t, x = spanFor t m := by
    intro ms
    induction ms with
    | nil => intro acc hacc _ x hx; exact hacc x hx
    | cons m ms ih =>
      intro acc hacc hms x hx
      rw [List.foldl_cons] at hx
      refine ih _ ?_ (fun m2 hm2 => hms m2 (List.mem_cons_of_mem m hm2)) x hx
      intro y hy
      by_cases hc : (!(spanFor t m).isEmpty && !acc.contains (spanFor t m)) = true
      · rw [if_pos hc] at hy
        rcases List.mem_append.mp hy with hy | hy
        · exact hacc y hy
        · rw [List.mem_singleton] at hy
          exact ⟨m, hms m (List.mem_cons_self m ms), hy⟩
      · rw [if_neg hc] at hy
        exact hacc y hy
  exact H (findMarkers t) [] (by simp) (fun m hm => hm) sp h

/-! ## Shifting the scan across a dropped prefix -/

theorem slice_shift {t : List Char} {k p q : Nat} :
    slice t (k + p) (k + q) = slice (t.drop k) p q := by
  rw [slice, slice]
  rw [show (t.take (k + q)).drop (k + p) = ((t.take (k + q)).drop k).drop p by
    rw [List.drop_drop]]
  rw [List.drop_take]
  rw [show k + q - k = q by omega]

theorem matchMarkerAt_shift {s : List Char} {k i : Nat} :
    matchMarkerAt s (k + i) = (matchMarkerAt (s.drop k) i).map (fun r => (k + r.1, r.2)) := by
  rw [matchMarkerAt, matchMarkerAt]
  rw [show s.drop (k + i) = (s.drop k).drop i by rw [List.drop_drop]]
  cases matchMarkerSuffix ((s.drop k).drop i) with
  | none => rfl
  | some r => simp [Nat.add_assoc]

theorem findMarkersFrom_shift {s : List Char} {k : Nat} :
    ∀ {fuel i : Nat}, findMarkersFrom s (k + i) fuel =
      (findMarkersFrom (s.drop k) i fuel).map (fun m => (k + m.1, k + m.2)) := by
  intro fuel
  induction fuel with
  | zero => intro i; rfl
  | succ fuel ih =>
    intro i
    rw [findMarkersFrom, findMarkersFrom]
    have hlen : (s.drop k).length = s.length - k := List.length_drop k s
    by_cases hi : i < (s.drop k).length
    · rw [if_pos (by omega), if_pos hi]
      rw [matchMarkerAt_shift]
      cases hm : matchMarkerAt (s.drop k) i with
      | none =>
        simp only [Option.map_none']
        rw [show k + i + 1 = k + (i + 1) by omega]
        exact ih
      | some v =>
        obtain ⟨j, g⟩ := v
        simp only [Option.map_some', List.map_cons]
        rw [ih]
    · rw [if_neg (by omega), if_neg hi]
      rfl

theorem deleteRanges_shift {t : List Char} {k : Nat} :
    ∀ (ms : List (Nat × Nat)) (pos : Nat),
      deleteRanges t (ms.map (fun m => (k + m.1, k + m.2))) (k + pos) =
        deleteRanges (t.drop k) ms pos := by
  intro ms
  induction ms with
  | nil => intro pos; rw [List.map_nil, deleteRanges, deleteRanges, List.drop_drop]
  | cons m ms ih =>
    intro pos
    rw [List.map_cons, deleteRanges, deleteRanges]
    rw [slice_shift, ih]

/-! ## `re.sub` deletes every occurrence (gap decomposition) -/

theorem removeMarkersAux_fuel {l : List Char} :
    ∀ {f1 f2 : Nat}, l.length ≤ f1 → l.length ≤ f2 →
      removeMarkersAux l f1 = removeMarkersAux l f2 := by
  suffices H : ∀ (f1 : Nat) (l : List Char) (f2 : Nat), l.length ≤ f1 → l.length ≤ f2 →
      removeMarkersAux l f1 = removeMarkersAux l f2 by
    intro f1 f2 h1 h2; exact H f1 l f2 h1 h2
  intro f1
  induction f1 with
  | zero =>
    intro l f2 h1 h2
    have hl : l = [] := by
      cases l with
      | nil => rfl
      | cons c r => simp at h1
    subst hl
    cases f2 with
    | zero => rfl
    | succ f2 => rfl
  | succ f1 ih =>
    intro l f2 h1 h2
    cases f2 with
    | zero =>
      have hl : l = [] := by
        cases l with
        | nil => rfl
        | cons c r => simp at h2
      subst hl
      rfl
    | succ f2 =>
      cases l with
      | nil => rfl
      | cons c rest =>
        rw [removeMarkersAux]
        rw [removeMarkersAux]
        cases hm : matchMarkerSuffix (c :: rest) with
        | some v =>
          obtain ⟨n, g⟩ := v
          obtain ⟨hle, h10⟩ := matchMarkerSuffix_le_length hm
          simp only []
          exact ih ((c :: rest).drop n) f2 (by rw [List.length_drop]; omega)
            (by rw [List.length_drop]; omega)
        | none =>
          simp only []
          rw [ih rest f2 (by simp only [List.length_cons] at h1; omega)
            (by simp only [List.length_cons] at h2; omega)]

theorem findMarkers_cons_match {c : Char} {rest : List Char} {n : Nat} {g : Groups}
    (hm : matchMarkerSuffix (c :: rest) = some (n, g)) :
    findMarkers (c :: rest) =
      (0, n) :: (findMarkers ((c :: rest).drop n)).map (fun m => (n + m.1, n + m.2)) := by
  obtain ⟨hle, h10⟩ := matchMarkerSuffix_le_length hm
  have hm0 : matchMarkerAt (c :: rest) 0 = some (n, g) := by
    rw [matchMarkerAt, List.drop_zero, hm]
    simp
  rw [findMarkers, List.length_cons, findMarkersFrom]
  rw [if_pos (by simp)]
  rw [hm0]
  simp only []
  congr 1
  have hshift := @findMarkersFrom_shift (c :: rest) n (rest.length + 1) 0
  rw [Nat.add_zero] at hshift
  rw [hshift]
  congr 1
  have hld : ((c :: rest).drop n).length = rest.length + 1 - n := by
    rw [List.length_drop, List.length_cons]
  exact findMarkersFrom_fuel (by omega) (by omega)

theorem findMarkers_cons_nomatch {c : Char} {rest : List Char}
    (hm : matchMarkerSuffix (c :: rest) = none) :
    findMarkers (c :: rest) = (findMarkers rest).map (fun m => (1 + m.1, 1 + m.2)) := by
  have hm0 : matchMarkerAt (c :: rest) 0 = none := by
    rw [matchMarkerAt, List.drop_zero, hm]
    rfl
  rw [findMarkers, List.length_cons, findMarkersFrom]
  rw [if_pos (by simp)]
  rw [hm0]
  simp only []
  have hshift := @findMarkersFrom_shift (c :: rest) 1 (rest.length + 1) 0
  rw [Nat.add_zero] at hshift
  rw [hshift]
  rfl

theorem removeMarkers_eq (l : List Char) : removeMarkers l = removeAllOccurrences l := by
  suffices H : ∀ (N : Nat) (l : List Char), l.length ≤ N →
      removeMarkers l = removeAllOccurrences l from H l.length l (Nat.le_refl _)
  intro N
  induction N with
  | zero =>
    intro l hl
    have : l = [] := by
      cases l with
      | nil => rfl
      | cons c r => simp at hl
    subst this
    rfl
  | succ N ih =>
    intro l hl
    cases l with
    | nil => rfl
    | cons c rest =>
      cases hm : matchMarkerSuffix (c :: rest) with
      | some v =>
        obtain ⟨n, g⟩ := v
        obtain ⟨hle, h10⟩ := matchMarkerSuffix_le_length hm
        have hL : removeMarkers (c :: rest) = removeMarkers ((c :: rest).drop n) := by
          rw [removeMarkers, List.length_cons]
          rw [removeMarkersAux, hm]
          simp only []
          rw [removeMarkers]
          apply removeMarkersAux_fuel
          · rw [List.length_drop]; simp only [List.length_cons]; omega
          · rw [List.length_drop]
        have hR : removeAllOccurrences (c :: rest) =
            removeAllOccurrences ((c :: rest).drop n) := by
          rw [removeAllOccurrences, findMarkers_cons_match hm, deleteRanges]
          have hnil : slice (c :: rest) 0 0 = [] := by simp [slice]
          rw [hnil, List.nil_append]
          have hsh := deleteRanges_shift (t := c :: rest) (k := n)
            (findMarkers ((c :: rest).drop n)) 0
          rw [Nat.add_zero] at hsh
          rw [hsh, removeAllOccurrences]
        rw [hL, hR]
        exact ih _ (by rw [List.length_drop]; simp only [List.length_cons] at hl ⊢; omega)
      | none =>
        have hL : removeMarkers (c :: rest) = c :: removeMarkers rest := by
          rw [removeMarkers, List.length_cons]
          rw [removeMarkersAux, hm]
          simp only []
          rw [removeMarkers]
        have hR : removeAllOccurrences (c :: rest) = c :: removeAllOccurrences rest := by
          rw [removeAllOccurrences, findMarkers_cons_nomatch hm]
          rw [removeAllOccurrences]
          cases hms : findMarkers rest with
          | nil => simp [deleteRanges]
          | cons m2 ms2 =>
            obtain ⟨a, b⟩ := m2
            rw [List.map_cons, deleteRanges, deleteRanges]
            simp only []
            have hsh := deleteRanges_shift (t := c :: rest) (k := 1) ms2 b
            rw [hsh]
            have hslice : slice (c :: rest) 0 (1 + a) = c :: slice rest 0 a := by
              rw [slice, slice, List.drop_zero, List.drop_zero]
              rw [show 1 + a = a + 1 by omega]
              rfl
            rw [hslice]
            rfl
        rw [hL, hR]
        rw [ih rest (by simp only [List.length_cons] at hl; omega)]

/-! ## Bool bridges for the scan predicates -/

theorem fwdAccept_iff {t : List Char} {e i : Nat} :
    (isDanda (charAt t i) && fwdAccept t e i) = true ↔ DelimAccepted t e i := by
  rw [Bool.and_eq_true, DelimAccepted, fwdAccept]
  simp [decide_eq_true_eq]

theorem commaOK_iff {t : List Char} {start i : Nat} :
    ((charAt t i = ',' : Bool) && commaCond t start i) = true ↔ CommaOK t start i := by
  rw [Bool.and_eq_true, commaCond, Bool.and_eq_true, CommaOK]
  constructor
  · rintro ⟨h1, h2, h3⟩
    refine ⟨by simpa using h1, ?_, by simpa using h3⟩
    intro h0
    rw [h0] at h2
    simp at h2
  · rintro ⟨h1, h2, h3⟩
    refine ⟨by simpa using h1, ?_, by simpa using h3⟩
    simp [List.isEmpty_iff, h2]

/-! ## The key order of the aggregator -/

theorem natListLE_total : ∀ (a b : List Nat), (natListLE a b || natListLE b a) = true := by
  intro a
  induction a with
  | nil => intro b; simp [natListLE]
  | cons x xs ih =>
    intro b
    cases b with
    | nil => simp [natListLE]
    | cons y ys =>
      rw [natListLE, natListLE]
      by_cases h1 : x < y
      · simp [if_pos h1]
      · by_cases h2 : y < x
        · simp [if_neg h1, if_pos h2]
        · simp only [if_neg h1, if_neg h2]
          exact ih ys

theorem natListLE_trans :
    ∀ (a b c : List Nat), natListLE a b = true → natListLE b c = true →
      natListLE a c = true := by
  intro a
  induction a with
  | nil => intro b c _ _; rfl
  | cons x xs ih =>
    intro b c h1 h2
    cases b with
    | nil => rw [natListLE] at h1; exact absurd h1 (by simp)
    | cons y ys =>
      cases c with
      | nil => rw [natListLE] at h2; exact absurd h2 (by simp)
      | cons z zs =>
        rw [natListLE] at h1 h2 ⊢
        by_cases hxy : x < y
        · rw [if_pos hxy] at h1
          by_cases hyz : y < z
          · rw [if_pos (show x < z by omega)]
          · rw [if_neg hyz] at h2
            by_cases hzy : z < y
            · rw [if_pos hzy] at h2; exact absurd h2 (by simp)
            · rw [if_pos (show x < z by omega)]
        · rw [if_neg hxy] at h1
          by_cases hyx : y < x
          · rw [if_pos hyx] at h1; exact absurd h1 (by simp)
          · rw [if_neg hyx] at h1
            by_cases hyz : y < z
            · rw [if_pos (show x < z by omega)]
            · rw [if_neg hyz] at h2
              by_cases hzy : z < y
              · rw [if_pos hzy] at h2; exact absurd h2 (by simp)
              · rw [if_neg hzy] at h2
                rw [if_neg (show ¬x < z by omega), if_neg (show ¬z < x by omega)]
                exact ih ys zs h1 h2

theorem keyLE_total (x y : Option (List Nat)) : (keyLE x y || keyLE y x) = true := by
  cases x with
  | none =>
    cases y with
    | none => rfl
    | some b => rfl
  | some a =>
    cases y with
    | none => rfl
    | some b => exact natListLE_total a b

theorem keyLE_trans (x y z : Option (List Nat)) :
    keyLE x y = true → keyLE y z = true → keyLE x z = true := by
  cases x with
  | none =>
    cases y with
    | none =>
      cases z with
      | none => intro _ _; rfl
      | some c => intro _ h2; exact absurd h2 (by simp [keyLE])
    | some b => intro h1 _; exact absurd h1 (by simp [keyLE])
  | some a =>
    cases y with
    | none =>
      cases z with
      | none => intro _ _; rfl
      | some c => intro _ h2; exact absurd h2 (by simp [keyLE])
    | some b =>
      cases z with
      | none => intro _ _; rfl
      | some c => exact natListLE_trans a b c

theorem natListLE_triple {a1 b1 c1 a2 b2 c2 : Nat} :
    natListLE [a1, b1, c1] [a2, b2, c2] = true ↔
      TripleLE (a1, b1, c1) (a2, b2, c2) := by
  rw [TripleLE]
  simp only [natListLE]
  split_ifs <;> simp <;> omega

/-! # Claim theorems -/

/-- C1 (counterexample to the claim as stated): in `cexC1` the nearest open
parenthesis preceding the danda candidate at index 56 (it sits at index 0,
56 positions back, outside the code's 50-character window) has no matching
close parenthesis before the candidate, so the claim's windowless rule says
the candidate must be rejected; yet the backward scan accepts it: scanning
back from the occurrence start 57 stops at the danda and returns boundary
57, which also becomes the span's left boundary. -/
theorem c1_window_counterexample :
    isDanda (charAt cexC1 56) = true ∧
    NearestOpenUnmatched cexC1 56 ∧
    findMarkers cexC1 = [(57, 68)] ∧
    scanBack cexC1 57 = 57 ∧
    sentenceStart cexC1 57 = 57 := by
  refine ⟨by decide, ⟨0, by decide, by decide, ?_, ?_⟩, by decide, by decide, by decide⟩
  · have h : ∀ k < 56, k ≠ 0 → charAt cexC1 k ≠ '(' := by decide
    exact fun k hk1 hk2 => h k hk2 (by omega)
  · have h : ∀ k < 57, charAt cexC1 k ≠ ')' := by decide
    exact fun k _ hk2 => h k (by omega)

/-- C1 (amended): during the backward scan a danda candidate is rejected
(treated as internal to a citation marker) exactly when the nearest
preceding open parenthesis *within the code's 50-character window before
the candidate* has no matching close parenthesis between it and the
candidate; and for the spec's delimiter-inside-marker example the single
extracted span contains the full marker `(पा.1।2।70)` unbroken. -/
theorem c1_backward_reject_window :
    (∀ (t : List Char) (i : Nat), i < t.length → isDanda (charAt t i) = true →
      (scanBack t (i + 1) ≠ i + 1 ↔ WindowOpenUnmatched t i)) ∧
    extract exC1 = [exC1span] ∧ "(पा.1।2।70)".toList <:+: exC1span := by
  refine ⟨?_, by decide, ?_⟩
  · intro t i hi hd
    rw [scanBack_succ hd]
    exact dandaRejected_iff hi hd
  · exact ⟨"`x` ".toList, " इति S2।".toList, by decide⟩

/-- C1 witness: the amended window rule applied at the concrete text
`"a।b"` and candidate index 1. -/
theorem c1_backward_reject_window_w :
    scanBack "a।b".toList 2 ≠ 2 ↔ WindowOpenUnmatched "a।b".toList 1 :=
  c1_backward_reject_window.1 "a।b".toList 1 (by decide) (by decide)

/-- C2: the forward scan's right boundary is one past the first sentence
delimiter at or after the occurrence's end whose between-text has no excess
of open parentheses over close parentheses (the delimiter is included in
the span); when no delimiter is accepted it is the text length. -/
theorem c2_right_boundary {t : List Char} {e : Nat} (he : e ≤ t.length) :
    ((∃ i, e ≤ i ∧ i < t.length ∧ DelimAccepted t e i) →
      ∃ i, e ≤ i ∧ i < t.length ∧ DelimAccepted t e i ∧
        (∀ j, e ≤ j → j < i → ¬DelimAccepted t e j) ∧
        sentenceEndScan t e = i + 1) ∧
    ((¬∃ i, e ≤ i ∧ i < t.length ∧ DelimAccepted t e i) →
      sentenceEndScan t e = t.length) := by
  constructor
  · rintro ⟨i0, hi0a, hi0b, hacc⟩
    cases hf : firstIdxFrom (fun i => isDanda (charAt t i) && fwdAccept t e i) e
        (t.length - e) with
    | none =>
      exfalso
      have hz := firstIdxFrom_eq_none_iff.mp hf i0 hi0a (by omega)
      exact absurd (fwdAccept_iff.mpr hacc) (by rw [hz]; simp)
    | some i =>
      obtain ⟨h1, h2, h3, h4⟩ := firstIdxFrom_eq_some_iff.mp hf
      refine ⟨i, h1, by omega, fwdAccept_iff.mp h3, ?_, ?_⟩
      · intro j hj1 hj2 hDA
        have hz := h4 j hj1 hj2
        exact absurd (fwdAccept_iff.mpr hDA) (by rw [hz]; simp)
      · rw [sentenceEndScan, hf]; rfl
  · intro hnone
    cases hf : firstIdxFrom (fun i => isDanda (charAt t i) && fwdAccept t e i) e
        (t.length - e) with
    | some i =>
      exfalso
      obtain ⟨h1, h2, h3, _⟩ := firstIdxFrom_eq_some_iff.mp hf
      exact hnone ⟨i, h1, by omega, fwdAccept_iff.mp h3⟩
    | none => rw [sentenceEndScan, hf]; rfl

/-- C2 witness: on `"ab।c"` with occurrence end 0 the scan accepts the
danda at index 2 and the right boundary is 3. -/
theorem c2_right_boundary_w :
    ∃ i, 0 ≤ i ∧ i < "ab।c".toList.length ∧ DelimAccepted "ab।c".toList 0 i ∧
      (∀ j, 0 ≤ j → j < i → ¬DelimAccepted "ab।c".toList 0 j) ∧
      sentenceEndScan "ab।c".toList 0 = i + 1 :=
  (c2_right_boundary (by decide)).1 ⟨2, by decide, by decide, by decide⟩

/-- C3: when the fixed 200-character window before the occurrence holds a
previous marker (ending at `lo`) and some comma between `lo` and the
occurrence start has non-empty, marker-free text after it, the left
boundary of the span is one past the first such comma — the comma rule
takes precedence over the backward delimiter scan. -/
theorem c3_comma_rule {t : List Char} {start lo : Nat}
    (hprev : prevSutraEnd t start = some lo)
    (hex : ∃ i, lo ≤ i ∧ i < start ∧ CommaOK t start i) :
    ∃ i, lo ≤ i ∧ i < start ∧ CommaOK t start i ∧
      (∀ j, lo ≤ j → j < i → ¬CommaOK t start j) ∧
      sentenceStart t start = i + 1 := by
  obtain ⟨i0, h0a, h0b, h0ok⟩ := hex
  cases hf : firstIdxFrom (fun i => charAt t i = ',' && commaCond t start i) lo
      (start - lo) with
  | none =>
    exfalso
    have hz := firstIdxFrom_eq_none_iff.mp hf i0 h0a (by omega)
    exact absurd (commaOK_iff.mpr h0ok) (by rw [hz]; simp)
  | some i =>
    obtain ⟨h1, h2, h3, h4⟩ := firstIdxFrom_eq_some_iff.mp hf
    refine ⟨i, h1, by omega, commaOK_iff.mp h3, ?_, ?_⟩
    · intro j hj1 hj2 hok
      have hz := h4 j hj1 hj2
      exact absurd (commaOK_iff.mpr hok) (by rw [hz]; simp)
    · rw [sentenceStart, commaStart, hprev]
      simp [hf]

/-- C3 witness: in `exC3` the second occurrence starts at 24, the previous
marker ends at 14, the comma at 18 qualifies, and the left boundary is 19. -/
theorem c3_comma_rule_w :
    ∃ i, 14 ≤ i ∧ i < 24 ∧ CommaOK exC3 24 i ∧
      (∀ j, 14 ≤ j → j < i → ¬CommaOK exC3 24 j) ∧
      sentenceStart exC3 24 = i + 1 :=
  c3_comma_rule (by decide) ⟨18, by decide, by decide, by decide⟩

/-- C4: a span holding more than one marker occurrence normalizes to exactly
one record per occurrence in left-to-right order, each carrying its own
occurrence's digit groups (hence its integer triple) and all carrying the
identical cleaned text; and the cleaning's marker-removal step deletes
every marker occurrence of the span, not just one (gap decomposition). -/
theorem c4_multi_marker_fanout {sp : List Char} (h : 1 < (findMarkers sp).length) :
    processSentenceList sp =
      (findMarkers sp).map (fun m => ⟨markerGroupsAt sp m.1, [], cleanSentence sp⟩) ∧
    (processSentenceList sp).map (fun r => r.triple) =
      (findMarkers sp).map (fun m => groupsTriple (markerGroupsAt sp m.1)) ∧
    removeMarkers sp = removeAllOccurrences sp ∧
    ∀ r ∈ processSentenceList sp, r.sentence = cleanSentence sp := by
  have h1 : processSentenceList sp = (findMarkers sp).map
      (fun m => ⟨markerGroupsAt sp m.1, [], cleanSentence sp⟩) := by
    rw [processSentenceList, if_pos h]
  refine ⟨h1, ?_, removeMarkers_eq sp, ?_⟩
  · rw [h1, List.map_map]; rfl
  · intro r hr
    rw [h1] at hr
    obtain ⟨m, _, rfl⟩ := List.mem_map.mp hr
    rfl

/-- C4 witness: the two-marker span `exC4` fans out into two records with
triples (1,2,70) and (3,3,57) sharing one cleaned text. -/
theorem c4_multi_marker_fanout_w :
    processSentenceList exC4 =
      (findMarkers exC4).map (fun m => ⟨markerGroupsAt exC4 m.1, [], cleanSentence exC4⟩) ∧
    (processSentenceList exC4).map (fun r => r.triple) =
      (findMarkers exC4).map (fun m => groupsTriple (markerGroupsAt exC4 m.1)) ∧
    removeMarkers exC4 = removeAllOccurrences exC4 ∧
    ∀ r ∈ processSentenceList exC4, r.sentence = cleanSentence exC4 :=
  c4_multi_marker_fanout (by decide)

/-- C5 (counterexample to the claim as stated): the extractor produces the
span `cexC5` unchanged; normalize yields one record whose cleaned text
still contains a citation-marker substring, because deleting the inner
marker splices `(पा.1|1` and `|1)` into the fresh marker `(पा.1|1|1)`. -/
theorem c5_splice_counterexample :
    extract cexC5 = [cexC5] ∧
    (processSentences (extract cexC5)).map (fun r => hasMarker r.sentence) = [true] := by
  exact ⟨by decide, by decide⟩

/-- C5 (amended): for every span the extractor returns, the span holds at
least one marker; normalize yields records whose digit groups form a prefix
of the span's marker occurrences in left-to-right order (all of them when
several markers are present; the single record is dropped only when its
cleaned text is empty); every produced record's cleaned text is the span
cleaned with every marker occurrence deleted — which, by the splice
counterexample, is not always marker-free. -/
theorem c5_normalize_matches_markers {t sp : List Char} (h : sp ∈ extract t) :
    findMarkers sp ≠ [] ∧
    (processSentenceList sp).map (fun r => r.sutra) <+:
      (findMarkers sp).map (fun m => markerGroupsAt sp m.1) ∧
    (∀ r ∈ processSentenceList sp, r.sentence = cleanSentence sp) ∧
    removeMarkers sp = removeAllOccurrences sp := by
  have hne : findMarkers sp ≠ [] := by
    obtain ⟨m, hm, rfl⟩ := extract_mem h
    obtain ⟨g, hg⟩ := findMarkers_sound hm
    obtain ⟨hmt, _, hnemp⟩ := matchMarkerAt_sliceText hg
    obtain ⟨u, v, huv⟩ := marker_infix_spanFor hm
    have hmatch : matchMarkerSuffix ((spanFor t m).drop u.length) =
        some (m.2 - m.1, g) := by
      rw [← huv, List.append_assoc, List.drop_left]
      exact matchMarkerSuffix_append hmt
    have hat : matchMarkerAt (spanFor t m) u.length =
        some (u.length + (m.2 - m.1), g) := by
      rw [matchMarkerAt, hmatch]
      rfl
    have hmem := findMarkers_complete hat
    intro hnil
    rw [hnil] at hmem
    exact absurd hmem (List.not_mem_nil _)
  refine ⟨hne, ?_⟩
  by_cases hlen : 1 < (findMarkers sp).length
  · have h1 : processSentenceList sp = (findMarkers sp).map
        (fun m => ⟨markerGroupsAt sp m.1, [], cleanSentence sp⟩) := by
      rw [processSentenceList, if_pos hlen]
    refine ⟨?_, ?_, removeMarkers_eq sp⟩
    · rw [h1, List.map_map]
      exact List.prefix_rfl
    · intro r hr
      rw [h1] at hr
      obtain ⟨m, _, rfl⟩ := List.mem_map.mp hr
      rfl
  · obtain ⟨m0, hm0⟩ : ∃ m0, findMarkers sp = [m0] := by
      cases hf : findMarkers sp with
      | nil => exact absurd hf hne
      | cons m0 ms =>
        have hms : ms = [] := by
          rw [hf] at hlen
          simp only [List.length_cons] at hlen
          exact List.length_eq_zero.mp (by omega)
        exact ⟨m0, by rw [hms]⟩
    have hps : processSentence sp =
        some ⟨markerGroupsAt sp m0.1, [], cleanSentence sp⟩ := by
      rw [processSentence, extractSutraReference, searchMarker_eq_head, hm0]
      rfl
    have h1 : processSentenceList sp =
        if !(cleanSentence sp).isEmpty
        then [⟨markerGroupsAt sp m0.1, [], cleanSentence sp⟩] else [] := by
      rw [processSentenceList, if_neg hlen, hps]
      rfl
    refine ⟨?_, ?_, removeMarkers_eq sp⟩
    · rw [h1, hm0]
      cases hx : (cleanSentence sp).isEmpty with
      | true => simp
      | false => exact List.prefix_rfl
    · intro r hr
      rw [h1] at hr
      cases hx : (cleanSentence sp).isEmpty with
      | true => rw [hx] at hr; simp at hr
      | false =>
        rw [hx] at hr
        simp only [Bool.not_false, if_true, List.mem_singleton] at hr
        rw [hr]

/-- C5 witness: the amended statement at the spec's delimiter-inside-marker
example span. -/
theorem c5_normalize_matches_markers_w :
    findMarkers exC1span ≠ [] ∧
    (processSentenceList exC1span).map (fun r => r.sutra) <+:
      (findMarkers exC1span).map (fun m => markerGroupsAt exC1span m.1) ∧
    (∀ r ∈ processSentenceList exC1span, r.sentence = cleanSentence exC1span) ∧
    removeMarkers exC1span = removeAllOccurrences exC1span :=
  c5_normalize_matches_markers (t := exC1) (by decide)

/-- C6: a text holding exactly one citation-marker occurrence extracts to
exactly one span, and that span contains the marker occurrence as an
unmodified contiguous substring. -/
theorem c6_single_marker_span {t : List Char} (h : (findMarkers t).length = 1) :
    ∃ s e, findMarkers t = [(s, e)] ∧ extract t = [spanFor t (s, e)] ∧
      slice t s e <:+: spanFor t (s, e) := by
  obtain ⟨m, hm⟩ : ∃ m, findMarkers t = [m] := by
    cases hf : findMarkers t with
    | nil => rw [hf] at h; simp at h
    | cons m ms =>
      rw [hf] at h
      simp only [List.length_cons] at h
      have hms : ms = [] := List.length_eq_zero.mp (by omega)
      exact ⟨m, by rw [hms]⟩
  obtain ⟨s, e⟩ := m
  have hmem : (s, e) ∈ findMarkers t := by rw [hm]; exact List.mem_cons_self _ _
  refine ⟨s, e, hm, ?_, marker_infix_spanFor hmem⟩
  rw [extract, hm]
  simp only [List.foldl_cons, List.foldl_nil]
  have hne := spanFor_ne_empty hmem
  have hcond : (!(spanFor t (s, e)).isEmpty &&
      !([] : List (List Char)).contains (spanFor t (s, e))) = true := by
    simp [List.isEmpty_iff, hne, List.contains]
  rw [if_pos hcond, List.nil_append]

/-- C6 witness: the bare single-marker input extracts to one span holding
the marker. -/
theorem c6_single_marker_span_w :
    ∃ s e, findMarkers exBare = [(s, e)] ∧ extract exBare = [spanFor exBare (s, e)] ∧
      slice exBare s e <:+: spanFor exBare (s, e) :=
  c6_single_marker_span (by decide)

/-- C7: every span the extractor returns contains at least one complete
marker occurrence as a contiguous substring; for that occurrence the left
boundary never falls after its start, the right boundary never falls before
its end, and the whitespace trim preserves the marker (it is made of
non-whitespace characters). -/
theorem c7_span_contains_marker {t sp : List Char} (h : sp ∈ extract t) :
    ∃ m ∈ findMarkers t, slice t m.1 m.2 <:+: sp ∧
      sentenceStart t m.1 ≤ m.1 ∧ m.2 ≤ sentenceEnd t m.2 := by
  obtain ⟨m, hm, rfl⟩ := extract_mem h
  obtain ⟨g, hg⟩ := findMarkers_sound hm
  obtain ⟨hlt, hle, _⟩ := matchMarkerAt_bounds hg
  exact ⟨m, hm, marker_infix_spanFor hm, sentenceStart_le, (sentenceEnd_bounds hle).1⟩

/-- C7 witness: the comma-shrunk two-citation text still yields spans each
containing a complete marker. -/
theorem c7_span_contains_marker_w :
    ∃ m ∈ findMarkers exC3, slice exC3 m.1 m.2 <:+: "`क` (पा.1।1।1) इति".toList ∧
      sentenceStart exC3 m.1 ≤ m.1 ∧ m.2 ≤ sentenceEnd exC3 m.2 :=
  c7_span_contains_marker (t := exC3) (by decide)

/-- C8: an input with no marker occurrence extracts to the empty sequence,
and a marker-free span normalizes to no record — `process_sentence` returns
nothing and `process_sentences` contributes nothing; both functions are
total, so absence of a marker is a normal empty outcome, not an error. -/
theorem c8_no_marker_empty {t : List Char} (h : findMarkers t = []) :
    extract t = [] ∧ processSentence t = none ∧ processSentenceList t = [] := by
  refine ⟨?_, ?_, ?_⟩
  · rw [extract, h]; rfl
  · rw [processSentence, extractSutraReference, searchMarker_eq_head, h]; rfl
  · rw [processSentenceList, if_neg (by rw [h]; simp)]
    rw [processSentence, extractSutraReference, searchMarker_eq_head, h]
    rfl

/-- C8 witness: a marker-free string yields no spans and no records. -/
theorem c8_no_marker_empty_w :
    extract "abc".toList = [] ∧ processSentence "abc".toList = none ∧
      processSentenceList "abc".toList = [] :=
  c8_no_marker_empty (by decide)

/-- C9: the word-enrichment pass is enrich-once and frame-preserving: a
record with a non-empty word is returned unchanged with zero service calls;
a record with an empty word triggers exactly one service call and only its
word field may change (sutra and sentence are untouched); the owning verse
entry's loc and v fields are never written. -/
theorem c9_fill_frame
    (oracle : List Char → List Char → List Char → List Char → List Char → List Char)
    (cm : List Char → List Char) (v : ExtractVerse) :
    (fillVerse oracle cm v).1.loc = v.loc ∧
    (fillVerse oracle cm v).1.v = v.v ∧
    ∀ e : ExtractEntry,
      (e.word ≠ [] → fillEntry oracle (cm v.loc) v.loc v.v e = (e, 0)) ∧
      (e.word = [] →
        (fillEntry oracle (cm v.loc) v.loc v.v e).1.sutra = e.sutra ∧
        (fillEntry oracle (cm v.loc) v.loc v.v e).1.sentence = e.sentence ∧
        (fillEntry oracle (cm v.loc) v.loc v.v e).2 = 1) := by
  refine ⟨rfl, rfl, ?_⟩
  intro e
  constructor
  · intro hw
    rw [fillEntry, if_pos (by simp [List.isEmpty_iff, hw])]
  · intro hw
    rw [fillEntry, if_neg (by simp [hw])]
    simp only []
    by_cases ho :
        (!(oracle e.sutra e.sentence v.loc (cm v.loc) v.v).isEmpty) = true
    · rw [if_pos ho]
      exact ⟨rfl, rfl, rfl⟩
    · rw [if_neg ho]
      exact ⟨rfl, rfl, rfl⟩

/-- C9 witness: with a concrete oracle and verse, the filled record is
skipped unchanged with zero calls, and the empty-word record keeps its
sutra field. -/
theorem c9_fill_frame_w :
    fillEntry oracleW (cmW vW.loc) vW.loc vW.v eW1 = (eW1, 0) ∧
    (fillEntry oracleW (cmW vW.loc) vW.loc vW.v eW2).1.sutra = eW2.sutra :=
  ⟨((c9_fill_frame oracleW cmW vW).2.2 eW1).1 (by decide),
   (((c9_fill_frame oracleW cmW vW).2.2 eW2).2 (by decide)).1⟩

/-- C10: for an input table whose keys are all integer triples "a.b.c",
`sort_sutra_dict` returns a permutation of the table (each key's record
list carried over unchanged) ordered by the triples compared as integers —
chapter, then section, then rule. -/
theorem c10_sorted_by_triples {α : Type} (l : List (List Char × α))
    (_hkeys : ∀ k ∈ l.map Prod.fst, ∃ a b c : Nat, sutraKey k = some [a, b, c]) :
    (sortSutraDict l).Perm l ∧
    List.Pairwise (fun x y : List Char × α =>
      ∀ a1 b1 c1 a2 b2 c2 : Nat, sutraKey x.1 = some [a1, b1, c1] →
        sutraKey y.1 = some [a2, b2, c2] → TripleLE (a1, b1, c1) (a2, b2, c2))
      (sortSutraDict l) := by
  constructor
  · exact List.mergeSort_perm l _
  · have hs := @List.sorted_mergeSort (List Char × α)
      (fun x y => keyLE (sutraKey x.1) (sutraKey y.1))
      (fun a b c h1 h2 => keyLE_trans _ _ _ h1 h2)
      (fun a b => keyLE_total _ _) l
    rw [sortSutraDict]
    refine hs.imp ?_
    intro x y hxy a1 b1 c1 a2 b2 c2 hx hy
    rw [hx, hy] at hxy
    exact natListLE_triple.mp hxy

/-- C10 witness: the concrete table sorts as 1.2.70 < 2.1.1 < 10.1.1, the
integer order rather than the string order. -/
theorem c10_sorted_by_triples_w :
    (sortSutraDict sortW).Perm sortW ∧
    List.Pairwise (fun x y : List Char × Nat =>
      ∀ a1 b1 c1 a2 b2 c2 : Nat, sutraKey x.1 = some [a1, b1, c1] →
        sutraKey y.1 = some [a2, b2, c2] → TripleLE (a1, b1, c1) (a2, b2, c2))
      (sortSutraDict sortW) :=
  c10_sorted_by_triples sortW (by
    intro k hk
    simp only [sortW, List.map_cons, List.map_nil, List.mem_cons,
      List.not_mem_nil, or_false] at hk
    rcases hk with rfl | rfl | rfl
    · exact ⟨10, 1, 1, by decide⟩
    · exact ⟨2, 1, 1, by decide⟩
    · exact ⟨1, 2, 70, by decide⟩)

end SutraPrayoga
